import Mathlib

/-!
# Verification of the DemoECPSS threshold secret-sharing core

This development embeds the TypeScript sources of the DemoECPSS repository
(`src/crypto/shamir.ts` and the ECPSS simulator built on it) into Lean and
proves the specification's claims about them.

Modelling conventions:
* JavaScript `BigInt` arithmetic is embedded as `ℤ`; the JS operators `%` and
  `/` truncate towards zero, which is `Int.tmod` and `Int.tdiv`.
* Byte strings (the UTF-8 encoding of the secret produced by `TextEncoder`)
  are embedded as `List ℕ` with every entry `< 256`.
* `Math.random()` draws are embedded as explicit random tapes: `ℚ` values for
  election draws (only ordering and flooring of these values matters) and `ℤ`
  values for polynomial coefficients.
* Fallible operations (code paths that `throw`) are embedded as `Except`.
-/

namespace ECPSS

/-- `const PRIME = 2n ** 127n - 1n` from `shamir.ts`. -/
def PRIME : ℤ := 2 ^ 127 - 1

/-- The modulus as a natural number (used for the field `ZMod NPRIME`). -/
def NPRIME : ℕ := 2 ^ 127 - 1

/-- The `Share` record of `shamir.ts`: `shareIndex`, `x` and `y`.  The `value`
field (a hex string used only for display) is omitted. -/
structure Share where
  shareIndex : ℕ
  x : ℕ
  y : ℤ
deriving Repr, DecidableEq

/-- Default used to embed JS `!`-indexing in positions proved in range. -/
def defaultShare : Share := ⟨0, 0, 0⟩

/-- `ShamirSecretSharing.stringToBigInt`: big-endian fold
`result = (result << 8n) | BigInt(bytes[i])` over the UTF-8 bytes. -/
def stringToBigInt (bytes : List ℕ) : ℤ :=
  ((bytes.foldl (fun result b => (result <<< 8) ||| b) 0 : ℕ) : ℤ)

/-- Loop of `ShamirSecretSharing.bigIntToString`:
`while temp > 0 { bytes.unshift(Number(temp & 0xFF)); temp = temp >> 8n }`. -/
def bigIntToStringLoop : ℕ → List ℕ
  | 0 => []
  | n + 1 => bigIntToStringLoop ((n + 1) >>> 8) ++ [(n + 1) &&& 0xFF]
termination_by n => n
decreasing_by
  simp only [Nat.shiftRight_eq_div_pow]
  exact Nat.div_lt_self (Nat.succ_pos n) (by norm_num)

/-- `ShamirSecretSharing.bigIntToString`: decode a (non-negative) field element
back into its big-endian byte string; the loop runs only while `temp > 0n`. -/
def bigIntToString (num : ℤ) : List ℕ :=
  bigIntToStringLoop num.toNat

/-- `ShamirSecretSharing.evaluatePolynomial`: Horner evaluation
`result = (result * xBig + coefficients[i]) % PRIME` for `i` from
`coefficients.length - 1` down to `0`. -/
def evaluatePolynomial (coefficients : List ℤ) (x : ℕ) : ℤ :=
  coefficients.foldr (fun c result => (result * (x : ℤ) + c).tmod PRIME) 0

/-- `ShamirSecretSharing.createShares`: polynomial with constant term the
encoded secret and `threshold - 1` further coefficients drawn from the random
tape, evaluated at `x = 1, 2, ..., n`. -/
def createShares (secret : List ℕ) (n threshold : ℕ) (tape : ℕ → ℤ) : List Share :=
  let secretNum := stringToBigInt secret
  let coefficients := secretNum :: (List.range (threshold - 1)).map tape
  (List.range n).map (fun i =>
    { shareIndex := i, x := i + 1, y := evaluatePolynomial coefficients (i + 1) })

/-- The `while (r !== 0n)` loop of `ShamirSecretSharing.modInverse`; the state
is `(oldR, r, oldS, s)` and each iteration computes `quotient = oldR / r` and
the simultaneous updates `[oldR, r] = [r, oldR - quotient * r]`,
`[oldS, s] = [s, oldS - quotient * s]`. -/
def modInverseLoop (oldR r oldS s : ℤ) : ℤ :=
  if r = 0 then oldS
  else modInverseLoop r (oldR - oldR.tdiv r * r) s (oldS - oldR.tdiv r * s)
termination_by r.natAbs
decreasing_by
  have hd : oldR - oldR.tdiv r * r = oldR.tmod r := by
    rw [Int.tmod_def]; ring
  rw [hd]
  rcases lt_trichotomy r 0 with hr | hr | hr
  · have h1 : oldR.tmod (-r) < -r := Int.tmod_lt_of_pos oldR (by omega)
    have h2 : -(-r) < oldR.tmod (-r) := by
      rcases le_or_lt 0 oldR with ha | ha
      · have := Int.tmod_nonneg (-r) ha; omega
      · have h3 : (-oldR).tmod (-r) < -r := Int.tmod_lt_of_pos _ (by omega)
        have h4 : (-oldR).tmod (-r) = -(oldR.tmod (-r)) := by
          rw [Int.tmod_def, Int.tmod_def, Int.neg_tdiv]; ring
        omega
    rw [Int.tmod_neg] at h1 h2
    omega
  · omega
  · have h1 : oldR.tmod r < r := Int.tmod_lt_of_pos oldR hr
    have h2 : -r < oldR.tmod r := by
      rcases le_or_lt 0 oldR with ha | ha
      · have := Int.tmod_nonneg r ha; omega
      · have h3 : (-oldR).tmod r < r := Int.tmod_lt_of_pos _ hr
        have h4 : (-oldR).tmod r = -(oldR.tmod r) := by
          rw [Int.tmod_def, Int.tmod_def, Int.neg_tdiv]; ring
        omega
    omega

/-- `ShamirSecretSharing.modInverse`: extended Euclid tracking only the
Bézout coefficient of `a`, with the final sign normalisation
`oldS < 0n ? oldS + m : oldS`. -/
def modInverse (a m : ℤ) : ℤ :=
  let oldS := modInverseLoop a m 1 0
  if oldS < 0 then oldS + m else oldS

/-- The `if (v < 0n) { v = (v % PRIME + PRIME) % PRIME }` normalisation used in
`reconstructSecret` and `computeNewShareFromSubShares`. -/
def ensurePositive (v : ℤ) : ℤ :=
  if v < 0 then (v.tmod PRIME + PRIME).tmod PRIME else v

/-- Numerator loop of the Lagrange basis at `x = 0`:
`numerator = (numerator * BigInt(-otherShare.x)) % PRIME` over all `j ≠ i`,
where `xs` is the list of the shares' `x` coordinates. -/
def lagNumerator (xs : List ℕ) (i : ℕ) : ℤ :=
  (List.range xs.length).foldl
    (fun acc j => if i = j then acc else (acc * -((xs.getD j 0 : ℕ) : ℤ)).tmod PRIME) 1

/-- Denominator loop of the Lagrange basis at `x = 0`:
`denominator = (denominator * BigInt(share.x - otherShare.x)) % PRIME`. -/
def lagDenominator (xs : List ℕ) (i : ℕ) : ℤ :=
  (List.range xs.length).foldl
    (fun acc j =>
      if i = j then acc
      else (acc * (((xs.getD i 0 : ℕ) : ℤ) - ((xs.getD j 0 : ℕ) : ℤ))).tmod PRIME) 1

/-- Modelled from the spec: `ShamirSecretSharing.lagrangeCoefficient` is called
by `Node.computeNewShareFromSubShares` but is not defined anywhere in the
repository's sources (the spec notes in §9 that this helper is referenced but
not defined in the same translation unit).  Per spec §4.3 and §9 it is the
shared Lagrange-basis-at-`x = 0` utility over the seat indices `xs`, i.e. the
same numerator/denominator/`modInverse` computation that
`ShamirSecretSharing.reconstructSecret` performs inline. -/
def lagrangeCoefficient (xs : List ℕ) (i : ℕ) : ℤ :=
  (ensurePositive (lagNumerator xs i) *
    modInverse (ensurePositive (lagDenominator xs i)) PRIME).tmod PRIME

/-- One term `(share.y * lagrangeCoeff) % PRIME` of the reconstruction sum. -/
def shareTerm (shares : List Share) (i : ℕ) : ℤ :=
  ((shares.getD i defaultShare).y * lagrangeCoefficient (shares.map (·.x)) i).tmod PRIME

/-- The accumulated `secret` of `ShamirSecretSharing.reconstructSecret` before
decoding: `secret = (secret + term) % PRIME` over all shares, followed by the
final negative-residue normalisation. -/
def reconstructNum (shares : List Share) : ℤ :=
  ensurePositive
    ((List.range shares.length).foldl (fun acc i => (acc + shareTerm shares i).tmod PRIME) 0)

/-- `ShamirSecretSharing.reconstructSecret`: Lagrange interpolation at `x = 0`
followed by decoding the field element back to a byte string. -/
def reconstructSecret (shares : List Share) : List ℕ :=
  bigIntToString (reconstructNum shares)

/-! ## The ECPSS simulator (`Node` and `ECPSSSimulator`) -/

/-- The mutable state of a `Node`: its `id`, its per-epoch election draw
`randomValue` (a `Math.random()` result, embedded as `ℚ`) and the share it
currently holds (`null` embedded as `none`).  The display-only `name` field is
omitted. -/
structure NodeState where
  id : ℕ
  randomValue : ℚ
  share : Option Share
deriving Repr, DecidableEq

/-- The `ECPSSSimulator` state: the node map (insertion-ordered, ids `1..10`)
and the epoch counter. -/
structure SimState where
  nodes : List NodeState
  currentEpoch : ℕ
deriving Repr, DecidableEq

/-- `ECPSSSimulator.totalNodes = 10`. -/
def totalNodes : ℕ := 10

/-- `ECPSSSimulator.nominatingSize = 5`. -/
def nominatingSize : ℕ := 5

/-- `ECPSSSimulator.threshold = 3`. -/
def threshold : ℕ := 3

/-- The node map built by `initializeNodes`: fresh nodes with ids `1..10`. -/
def freshNodes : List NodeState :=
  (List.range totalNodes).map (fun i => { id := i + 1, randomValue := 0, share := none })

/-- The simulator state right after construction. -/
def initialState : SimState :=
  { nodes := freshNodes, currentEpoch := 0 }

/-- `Node.reset`: clear the election draw and the held share. -/
def resetNode (nd : NodeState) : NodeState :=
  { nd with randomValue := 0, share := none }

/-- The randomness consumed by one `startNewEpoch` call: `rvs i` is node
`i`'s `generateRandomValue()` draw, `noms i` is the `Math.random()` draw node
`i` uses inside `checkAndNominate`, and `coeffs j k` is the `k`-th random
coefficient drawn by the `j`-th sub-sharing old node. -/
structure EpochRand where
  rvs : ℕ → ℚ
  noms : ℕ → ℚ
  coeffs : ℕ → ℕ → ℤ

/-- `Math.random()` returns values in `[0, 1)`; the nomination draws must obey
this for `candidates[randomIndex]` to be in bounds. -/
def ValidRand (er : EpochRand) : Prop :=
  ∀ i, 0 ≤ er.noms i ∧ er.noms i < 1

/-- `Node.checkAndNominate`: sort all draws, take the `nominatingSize`-th
smallest as the nomination threshold; a node whose own draw is `≤` it picks a
holder uniformly from `availableNodes` minus itself, falling back to itself
when no candidate exists (`candidates[randomIndex] ?? this.id`); out-of-range
indexing into `sortedValues` yields `undefined`, and `v <= undefined` is
`false` in JS, hence `none`. -/
def checkAndNominate (nd : NodeState) (allValues : List ℚ) (nomSize : ℕ)
    (availableNodes : List ℕ) (rand : ℚ) : Option ℕ :=
  let sortedValues := allValues.insertionSort (· ≤ ·)
  match sortedValues.get? (nomSize - 1) with
  | none => none
  | some thr =>
    if nd.randomValue ≤ thr then
      let candidates := availableNodes.filter (fun nodeId => nodeId ≠ nd.id)
      let randomIndex := (⌊rand * (candidates.length : ℚ)⌋).toNat
      some ((candidates.get? randomIndex).getD nd.id)
    else none

/-- `Node.createSubShares`: `throw` when no share is held, otherwise build a
fresh polynomial with the held share value as constant term and `threshold - 1`
tape coefficients, evaluated at `1..numNewSeats`. -/
def createSubShares (share : Option Share) (numNewSeats thr : ℕ) (tape : ℕ → ℤ) :
    Except String (List ℤ) :=
  match share with
  | none => .error "Node has no share to create sub-shares from"
  | some sh =>
    let coefficients := sh.y :: (List.range (thr - 1)).map tape
    .ok ((List.range numNewSeats).map (fun k => evaluatePolynomial coefficients (k + 1)))

/-- The sum `Σ λ_j · σ_{j,k} mod PRIME` of `Node.computeNewShareFromSubShares`,
including the final negative-residue normalisation. -/
def computeNewShareValue (subShareValues : List ℤ) (oldSeatIndices : List ℕ) : ℤ :=
  ensurePositive
    ((List.range subShareValues.length).foldl
      (fun acc j =>
        (acc + (lagrangeCoefficient oldSeatIndices j * subShareValues.getD j 0).tmod PRIME).tmod
          PRIME)
      0)

/-- Give the node with id `targetId` the given share (used for
`receiveShare` and for the share stored by `computeNewShareFromSubShares`);
a missing id leaves the map unchanged (`if (!node) continue`). -/
def setShare (nodes : List NodeState) (targetId : ℕ) (sh : Share) : List NodeState :=
  nodes.map (fun nd => if nd.id = targetId then { nd with share := some sh } else nd)

/-- `Node.computeNewShareFromSubShares` as a map update: node `targetId` stores
the recombined share at seat `seatIndex`. -/
def computeNewShareFromSubShares (nodes : List NodeState) (targetId seatIndex : ℕ)
    (subShareValues : List ℤ) (oldSeatIndices : List ℕ) : List NodeState :=
  setShare nodes targetId
    { shareIndex := seatIndex - 1, x := seatIndex,
      y := computeNewShareValue subShareValues oldSeatIndices }

/-- Phase `node.generateRandomValue()` of `startNewEpoch`: node `i` stores
draw `rvs i`. -/
def generateAll (nodes : List NodeState) (rvs : ℕ → ℚ) : List NodeState :=
  nodes.enum.map (fun p => { p.2 with randomValue := rvs p.1 })

/-- One iteration of the nomination loop of `startNewEpoch`: the node filters
the available ids by the members already chosen and runs `checkAndNominate`. -/
def nominationStep (allValues : List ℚ) (availableNodes : List ℕ) (noms : ℕ → ℚ)
    (members : List ℕ) (p : ℕ × NodeState) : List ℕ :=
  let available := availableNodes.filter (fun id => id ∉ members)
  match checkAndNominate p.2 allValues nominatingSize available (noms p.1) with
  | some nominated => members ++ [nominated]
  | none => members

/-- The nomination loop of `startNewEpoch`: each node in turn runs
`nominationStep`. -/
def nominationLoop (nodes : List NodeState) (allValues : List ℚ)
    (availableNodes : List ℕ) (noms : ℕ → ℚ) : List ℕ :=
  nodes.enum.foldl (nominationStep allValues availableNodes noms) []

/-- `ECPSSSimulator.distributeInitialShares`: share `i` goes to holder `i`,
for `i < min holders.length shares.length`. -/
def distributeInitialShares (nodes : List NodeState) (holders : List ℕ)
    (shares : List Share) : List NodeState :=
  (List.range (min holders.length shares.length)).foldl
    (fun ns i => setShare ns (holders.getD i 0) (shares.getD i defaultShare)) nodes

/-- `ECPSSSimulator.transferShares` (the handover protocol): collect the old
share-holding nodes; if none, log a warning and return unchanged; otherwise
every old holder creates sub-shares, the node map is replaced by fresh nodes,
and new holder `k` recombines the `k`-th sub-share of the first `threshold`
old holders at seat `k + 1`. -/
def transferShares (nodes : List NodeState) (newHolderIds : List ℕ)
    (coeffs : ℕ → ℕ → ℤ) : Except String (List NodeState) :=
  let oldNodesWithShares := nodes.filter (fun nd => nd.share.isSome)
  if oldNodesWithShares.length = 0 then .ok nodes
  else do
    let subShareMatrix ← oldNodesWithShares.enum.mapM
      (fun p => createSubShares p.2.share newHolderIds.length threshold (coeffs p.1))
    let oldSeatIndices := oldNodesWithShares.map (fun nd => (nd.share.getD defaultShare).x)
    let oldIndicesToUse := oldSeatIndices.take threshold
    return (List.range newHolderIds.length).foldl
      (fun ns k =>
        let subSharesForThisSeat :=
          (List.range threshold).map (fun j => (subShareMatrix.getD j []).getD k 0)
        computeNewShareFromSubShares ns (newHolderIds.getD k 0) (k + 1)
          subSharesForThisSeat oldIndicesToUse)
      freshNodes

/-- `ECPSSSimulator.startNewEpoch`: bump the epoch, have every node draw, run
the nomination loop, then either distribute the given initial shares (first
epoch) or run the handover. -/
def startNewEpoch (st : SimState) (er : EpochRand) (initialShares : Option (List Share)) :
    Except String SimState :=
  let nodes1 := generateAll st.nodes er.rvs
  let allValues := nodes1.map (·.randomValue)
  let availableNodes := nodes1.map (·.id)
  let newHoldingMembers := nominationLoop nodes1 allValues availableNodes er.noms
  match initialShares with
  | some shares =>
    .ok { currentEpoch := st.currentEpoch + 1,
          nodes := distributeInitialShares nodes1 newHoldingMembers shares }
  | none => do
    let nodes2 ← transferShares nodes1 newHoldingMembers er.coeffs
    return { currentEpoch := st.currentEpoch + 1, nodes := nodes2 }

/-- `ECPSSSimulator.encryptSecret`: create `nominatingSize` shares with the
configured threshold and start the first epoch with them. -/
def simEncryptSecret (secret : List ℕ) (tape : ℕ → ℤ) (er : EpochRand) (st : SimState) :
    Except String SimState :=
  startNewEpoch st er (some (createShares secret nominatingSize threshold tape))

/-- `ECPSSSimulator.keepAlive`: start a new epoch with no initial shares. -/
def simKeepAlive (er : EpochRand) (st : SimState) : Except String SimState :=
  startNewEpoch st er none

/-- The shares still held, gathered in node order. -/
def collectShares (st : SimState) : List Share :=
  st.nodes.filterMap (·.share)

/-- The number of nodes currently holding a share. -/
def countHolders (st : SimState) : ℕ :=
  (st.nodes.filter (fun nd => nd.share.isSome)).length

/-- `ECPSSSimulator.reconstructSecret`: gather all held shares; reconstruct
from the first `threshold` of them when enough are available, otherwise report
`null`; in both cases reset the epoch counter and every node.  No code path
throws (`modInverse` is total), so the embedding is a total function. -/
def simReconstructSecret (st : SimState) : Option (List ℕ) × SimState :=
  let sharesCollected := collectShares st
  let st' : SimState := { nodes := st.nodes.map resetNode, currentEpoch := 0 }
  if threshold ≤ sharesCollected.length then
    (some (reconstructSecret (sharesCollected.take threshold)), st')
  else
    (none, st')

/-- The share-level content of one handover cycle, exactly as `transferShares`
wires it: every old holder re-splits its share (`createSubShares` with tape
`subTapes j` for the `j`-th old holder), and the new holder for seat `k + 1`
recombines the `k`-th sub-shares of the first `thr` old holders with the old
holders' original x-coordinates (`computeNewShareFromSubShares`). -/
def handoverShares (oldShares : List Share) (thr numNew : ℕ) (subTapes : ℕ → ℕ → ℤ) :
    List Share :=
  let subShareMatrix := oldShares.enum.map (fun p =>
    (List.range numNew).map (fun k =>
      evaluatePolynomial (p.2.y :: (List.range (thr - 1)).map (subTapes p.1)) (k + 1)))
  let oldIndicesToUse := (oldShares.map (·.x)).take thr
  (List.range numNew).map (fun k =>
    { shareIndex := k, x := k + 1,
      y := computeNewShareValue
        ((List.range thr).map (fun j => (subShareMatrix.getD j []).getD k 0))
        oldIndicesToUse })

/-- Unwrap an `Except`-returning protocol step known to succeed. -/
def okState (e : Except String SimState) : SimState :=
  match e with
  | .ok s => s
  | .error _ => initialState

/-- The protocol states reachable from the freshly constructed simulator by
the three external triggers, with nomination randomness in `[0, 1)` as
`Math.random()` guarantees. -/
inductive Reachable : SimState → Prop
  | init : Reachable initialState
  | encrypt {st st' : SimState} {secret : List ℕ} {tape : ℕ → ℤ} {er : EpochRand} :
      Reachable st → ValidRand er → simEncryptSecret secret tape er st = .ok st' →
      Reachable st'
  | keepAlive {st st' : SimState} {er : EpochRand} :
      Reachable st → ValidRand er → simKeepAlive er st = .ok st' → Reachable st'
  | reconstruct {st : SimState} :
      Reachable st → Reachable (simReconstructSecret st).2

/-! ## Basic facts about the modulus -/

theorem NPRIME_prime : Nat.Prime NPRIME := by
  have h : NPRIME = mersenne 127 := by rw [mersenne, NPRIME]
  rw [h]
  exact lucas_lehmer_sufficiency 127 (by norm_num) (by norm_num)

instance : Fact (Nat.Prime NPRIME) := ⟨NPRIME_prime⟩

/-- The field `GF(2^127 - 1)` over which the sharing scheme works. -/
abbrev Fp : Type := ZMod NPRIME

theorem PRIME_eq_natCast : PRIME = (NPRIME : ℤ) := by
  rw [PRIME, NPRIME]
  push_cast [Nat.one_le_two_pow]

theorem PRIME_pos : 0 < PRIME := by norm_num [PRIME]

theorem one_lt_PRIME : 1 < PRIME := by norm_num [PRIME]

theorem cast_PRIME_eq_zero : ((PRIME : ℤ) : Fp) = 0 := by
  rw [PRIME_eq_natCast]
  exact_mod_cast ZMod.natCast_self NPRIME

/-- Negating the dividend negates the truncated remainder. -/
theorem neg_tmod (a b : ℤ) : (-a).tmod b = -(a.tmod b) := by
  rw [Int.tmod_def, Int.tmod_def, Int.neg_tdiv]
  ring

theorem tmod_lt_of_pos' (a : ℤ) {b : ℤ} (hb : 0 < b) : a.tmod b < b :=
  Int.tmod_lt_of_pos a hb

theorem neg_lt_tmod (a : ℤ) {b : ℤ} (hb : 0 < b) : -b < a.tmod b := by
  rcases le_or_lt 0 a with h | h
  · have := Int.tmod_nonneg b h
    omega
  · have h3 : (-a).tmod b < b := Int.tmod_lt_of_pos _ hb
    rw [neg_tmod] at h3
    omega

/-- `Int.cast` kills a `tmod PRIME` in `Fp`. -/
theorem cast_tmod (a : ℤ) : ((a.tmod PRIME : ℤ) : Fp) = (a : Fp) := by
  rw [Int.tmod_def]
  push_cast
  rw [cast_PRIME_eq_zero]
  ring

theorem cast_ensurePositive (v : ℤ) : ((ensurePositive v : ℤ) : Fp) = (v : Fp) := by
  rw [ensurePositive]
  split
  · rw [cast_tmod]
    push_cast
    rw [cast_tmod, cast_PRIME_eq_zero]
    ring
  · rfl

theorem ensurePositive_nonneg {v : ℤ} (h2 : v < PRIME) :
    0 ≤ ensurePositive v ∧ ensurePositive v < PRIME := by
  rw [ensurePositive]
  split
  · have h3 : 0 ≤ v.tmod PRIME + PRIME := by
      have := neg_lt_tmod v PRIME_pos
      omega
    constructor
    · exact Int.tmod_nonneg _ h3
    · exact Int.tmod_lt_of_pos _ PRIME_pos
  · omega

/-- Each step of the inner mod-`PRIME` folds either keeps the accumulator or
replaces it by a truncated remainder, so the result stays in `(-PRIME, PRIME)`. -/
theorem foldl_tmod_range {f : ℤ → ℕ → ℤ}
    (hf : ∀ acc j, f acc j = acc ∨ ∃ w : ℤ, f acc j = w.tmod PRIME) :
    ∀ (l : List ℕ) (init : ℤ), -PRIME < init → init < PRIME →
      -PRIME < l.foldl f init ∧ l.foldl f init < PRIME := by
  intro l
  induction l with
  | nil => intro init h1 h2; exact ⟨h1, h2⟩
  | cons x xs ih =>
    intro init h1 h2
    rcases hf init x with h | ⟨w, hw⟩
    · rw [List.foldl_cons, h]
      exact ih init h1 h2
    · rw [List.foldl_cons, hw]
      exact ih _ (neg_lt_tmod w PRIME_pos) (Int.tmod_lt_of_pos w PRIME_pos)

/-! ## Correctness of `modInverse` (extended Euclid) -/

theorem abs_sub_of_mul_nonpos {x y : ℤ} (h : x * y ≤ 0) : |x - y| = |x| + |y| := by
  rcases mul_nonpos_iff.mp h with ⟨hx, hy⟩ | ⟨hx, hy⟩
  · rw [abs_of_nonneg hx, abs_of_nonpos hy, abs_of_nonneg (by omega)]
    ring
  · rw [abs_of_nonpos hx, abs_of_nonneg hy, abs_of_nonpos (by omega)]
    ring

/-- Invariant-based specification of the `modInverse` loop: starting from a
state whose Bézout-style invariants hold, the loop returns a multiplier `R`
with `R * a ≡ gcd a m (mod m)` and `|R| ≤ max |oldS| m`. -/
theorem modInverseLoop_spec (a m : ℤ) :
    ∀ (fuel : ℕ) (oldR r oldS s : ℤ),
      r.natAbs ≤ fuel →
      0 ≤ oldR → 0 ≤ r →
      oldS * s ≤ 0 →
      |oldS * r - s * oldR| = m →
      oldR ≡ oldS * a [ZMOD m] →
      r ≡ s * a [ZMOD m] →
      Int.gcd oldR r = Int.gcd a m →
      (1 ≤ oldR ∨ (oldS = 1 ∧ s = 0)) →
      modInverseLoop oldR r oldS s * a ≡ (Int.gcd a m : ℤ) [ZMOD m] ∧
      |modInverseLoop oldR r oldS s| ≤ max |oldS| m := by
  intro fuel
  induction fuel with
  | zero =>
    intro oldR r oldS s hfuel h0R h0r hss habs hcR hcr hgcd hdisj
    have hr : r = 0 := by omega
    subst hr
    rw [modInverseLoop, if_pos rfl]
    refine ⟨?_, le_max_left _ _⟩
    have h1 : (Int.gcd a m : ℤ) = oldR := by
      rw [← hgcd, Int.gcd_zero_right]
      exact Int.natAbs_of_nonneg h0R
    rw [h1]
    exact hcR.symm
  | succ fuel ih =>
    intro oldR r oldS s hfuel h0R h0r hss habs hcR hcr hgcd hdisj
    by_cases hr : r = 0
    · subst hr
      rw [modInverseLoop, if_pos rfl]
      refine ⟨?_, le_max_left _ _⟩
      have h1 : (Int.gcd a m : ℤ) = oldR := by
        rw [← hgcd, Int.gcd_zero_right]
        exact Int.natAbs_of_nonneg h0R
      rw [h1]
      exact hcR.symm
    · have hrpos : 0 < r := by omega
      have hm0 : 0 ≤ m := by
        rw [← habs]; exact abs_nonneg _
      rw [modInverseLoop, if_neg hr]
      set q := oldR.tdiv r with hq
      have hr' : oldR - q * r = oldR.tmod r := by rw [Int.tmod_def]; ring
      have hq0 : 0 ≤ q := Int.tdiv_nonneg h0R (le_of_lt hrpos)
      have htm0 : 0 ≤ oldR - q * r := by rw [hr']; exact Int.tmod_nonneg r h0R
      have htmlt : oldR - q * r < r := by rw [hr']; exact Int.tmod_lt_of_pos oldR hrpos
      have hfuel' : (oldR - q * r).natAbs ≤ fuel := by omega
      have hss' : s * (oldS - q * s) ≤ 0 := by nlinarith [sq_nonneg s]
      have habs' : |s * (oldR - q * r) - (oldS - q * s) * r| = m := by
        have h6 : s * (oldR - q * r) - (oldS - q * s) * r = -(oldS * r - s * oldR) := by ring
        rw [h6, abs_neg]
        exact habs
      have hcr' : oldR - q * r ≡ (oldS - q * s) * a [ZMOD m] := by
        have h5 := hcR.sub (hcr.mul_left q)
        have h6 : oldS * a - q * (s * a) = (oldS - q * s) * a := by ring
        rwa [h6] at h5
      have hgcd' : Int.gcd r (oldR - q * r) = Int.gcd a m := by
        rw [← hgcd, hr']
        obtain ⟨A, hA⟩ : ∃ A : ℕ, oldR = (A : ℤ) := ⟨oldR.toNat, (Int.toNat_of_nonneg h0R).symm⟩
        obtain ⟨B, hB⟩ : ∃ B : ℕ, r = (B : ℤ) := ⟨r.toNat, (Int.toNat_of_nonneg h0r).symm⟩
        subst hA
        subst hB
        rw [← Int.ofNat_tmod]
        simp only [Int.gcd, Int.natAbs_ofNat]
        rw [Nat.gcd_comm B (A % B), ← Nat.gcd_rec, Nat.gcd_comm]
      obtain ⟨hcong, hbound⟩ :=
        ih r (oldR - q * r) s (oldS - q * s) hfuel' (le_of_lt hrpos) htm0 hss' habs'
          hcr hcr' hgcd' (Or.inl hrpos)
      refine ⟨hcong, le_trans hbound (max_le ?_ (le_max_right _ _))⟩
      -- `|s| ≤ m`, so `max |s| m = m ≤ max |oldS| m`
      have hsm : |s| ≤ m := by
        rcases hdisj with h1R | ⟨hS1, hs0⟩
        · have hxy : (oldS * r) * (s * oldR) ≤ 0 := by nlinarith [mul_nonneg h0r h0R]
          have habs2 : |oldS * r| + |s * oldR| = m := by
            rw [← abs_sub_of_mul_nonpos hxy]
            exact habs
          have h7 : |s * oldR| = |s| * oldR := by
            rw [abs_mul, abs_of_nonneg h0R]
          nlinarith [abs_nonneg (oldS * r), abs_nonneg s]
        · rw [hs0]
          simpa using hm0
      exact hsm.trans (le_max_right _ _)

theorem gcd_PRIME_eq_one {d : ℤ} (h0 : 0 < d) (hP : d < PRIME) : Int.gcd d PRIME = 1 := by
  have h1 : PRIME.natAbs = NPRIME := by
    rw [PRIME_eq_natCast, Int.natAbs_ofNat]
  have h2 : d.natAbs < NPRIME := by
    rw [PRIME_eq_natCast] at hP
    omega
  have h3 : 0 < d.natAbs := by omega
  have h4 : ¬ NPRIME ∣ d.natAbs := Nat.not_dvd_of_pos_of_lt h3 h2
  have h5 : Nat.Coprime NPRIME d.natAbs := (Nat.Prime.coprime_iff_not_dvd NPRIME_prime).mpr h4
  rw [Int.gcd, h1]
  exact Nat.coprime_comm.mp h5

theorem not_zero_modEq_one : ¬ ((0 : ℤ) ≡ 1 [ZMOD PRIME]) := by
  intro h
  have h1 : (0 : ℤ) % PRIME = 0 := by simp
  have h2 : (1 : ℤ) % PRIME = 1 := Int.emod_eq_of_lt (by norm_num) one_lt_PRIME
  rw [Int.ModEq, h1, h2] at h
  exact absurd h (by norm_num)

/-- Full specification of `modInverse` on `(0, PRIME)`: the result is a true
modular inverse and lies in `[0, PRIME)`. -/
theorem modInverse_spec {d : ℤ} (h0 : 0 < d) (hP : d < PRIME) :
    (0 ≤ modInverse d PRIME ∧ modInverse d PRIME < PRIME) ∧
    d * modInverse d PRIME ≡ 1 [ZMOD PRIME] := by
  have hgcd : Int.gcd d PRIME = 1 := gcd_PRIME_eq_one h0 hP
  obtain ⟨hcong, hbound⟩ :=
    modInverseLoop_spec d PRIME PRIME.natAbs d PRIME 1 0 (le_refl _) (le_of_lt h0)
      (le_of_lt PRIME_pos) (by norm_num)
      (by rw [one_mul, zero_mul, sub_zero]; exact abs_of_pos PRIME_pos)
      (by simpa using Int.ModEq.refl d)
      (by
        have : (PRIME : ℤ) ≡ 0 [ZMOD PRIME] := Int.modEq_zero_iff_dvd.mpr dvd_rfl
        simpa using this)
      rfl (Or.inl h0)
  rw [hgcd] at hcong
  push_cast at hcong
  set R := modInverseLoop d PRIME 1 0 with hR
  have hbound' : |R| ≤ PRIME := by
    have : max |(1 : ℤ)| PRIME = PRIME := max_eq_right (by norm_num [PRIME])
    rwa [this] at hbound
  have hPm0 : (PRIME : ℤ) ≡ 0 [ZMOD PRIME] := Int.modEq_zero_iff_dvd.mpr dvd_rfl
  have hRP : R ≠ PRIME := by
    intro hRP
    have h2 : R * d ≡ 0 [ZMOD PRIME] := by
      rw [hRP]
      have := hPm0.mul_right d
      simpa using this
    exact not_zero_modEq_one (h2.symm.trans hcong)
  have hF : modInverse d PRIME = if R < 0 then R + PRIME else R := by
    rw [modInverse]
  have hFcong : modInverse d PRIME ≡ R [ZMOD PRIME] := by
    rw [hF]
    split
    · have := (Int.ModEq.refl R).add hPm0
      simpa using this
    · exact Int.ModEq.refl R
  constructor
  · rw [hF]
    split <;> rename_i hRneg
    · constructor
      · have : -PRIME ≤ R := by
          have := abs_le.mp hbound'
          omega
        omega
      · omega
    · constructor
      · omega
      · have := abs_le.mp hbound'
        omega
  · calc d * modInverse d PRIME ≡ d * R [ZMOD PRIME] := hFcong.mul_left d
      _ ≡ 1 [ZMOD PRIME] := by rw [mul_comm]; exact hcong

set_option maxRecDepth 4000 in
/-- In the field `Fp`, `modInverse` computes the actual inverse. -/
theorem cast_modInverse {d : ℤ} (h0 : 0 < d) (hP : d < PRIME) :
    ((modInverse d PRIME : ℤ) : Fp) = ((d : ℤ) : Fp)⁻¹ := by
  obtain ⟨_, hcong⟩ := modInverse_spec h0 hP
  have h1 : ((d * modInverse d PRIME : ℤ) : Fp) = ((1 : ℤ) : Fp) := by
    rw [ZMod.intCast_eq_intCast_iff]
    rwa [PRIME_eq_natCast] at hcong
  push_cast at h1
  exact eq_inv_of_mul_eq_one_right h1

/-- Helper: `modInverse 0 m` silently returns `0` (no error is signalled even
though `gcd 0 m = m ≠ 1`). -/
theorem modInverse_zero_eq {m : ℤ} (hm : 1 < m) :
    modInverse 0 m = 0 ∧ (0 * modInverse 0 m).tmod m ≠ 1 := by
  have h1 : modInverseLoop 0 m 1 0 = 0 := by
    rw [modInverseLoop, if_neg (by omega)]
    simp only [Int.zero_tdiv, zero_mul, sub_zero, mul_zero]
    rw [modInverseLoop, if_pos rfl]
  constructor
  · simp [modInverse, h1]
  · simp [modInverse, h1]

/-! ## Claims C4 and C5: `modInverse` -/

/-- **C4.** For every integer `a` with `1 ≤ a < PRIME`, the result of
`modInverse a PRIME` satisfies `(a * modInverse a PRIME) % PRIME = 1` and lies
in `[0, PRIME)`. -/
theorem modInverse_inverse (a : ℤ) (h1 : 1 ≤ a) (h2 : a < PRIME) :
    (a * modInverse a PRIME).tmod PRIME = 1 ∧
    0 ≤ modInverse a PRIME ∧ modInverse a PRIME < PRIME := by
  obtain ⟨⟨hge, hlt⟩, hcong⟩ := modInverse_spec (by omega) h2
  refine ⟨?_, hge, hlt⟩
  have hnn : 0 ≤ a * modInverse a PRIME := mul_nonneg (by omega) hge
  rw [Int.tmod_eq_emod hnn (le_of_lt PRIME_pos)]
  rw [Int.ModEq] at hcong
  rw [hcong, Int.emod_eq_of_lt (by norm_num) one_lt_PRIME]

/-- Witness for C4 at the concrete input `a = 7`. -/
theorem modInverse_inverse_witness :
    ((1 : ℤ) ≤ 7 ∧ (7 : ℤ) < PRIME) ∧
    ((7 * modInverse 7 PRIME).tmod PRIME = 1 ∧
      0 ≤ modInverse 7 PRIME ∧ modInverse 7 PRIME < PRIME) :=
  ⟨⟨by norm_num, by norm_num [PRIME]⟩,
    modInverse_inverse 7 (by norm_num) (by norm_num [PRIME])⟩

/-- **C5, counterexample.** The claim says `modInverse a m` fails with a
`NotInvertible` error whenever `gcd a m ≠ 1` (e.g. `a = 0`); in fact the code
performs no such check: at `a = 0`, `m = PRIME` it returns the value `0`,
which is not an inverse. -/
theorem modInverse_zero_returns_value :
    modInverse 0 PRIME = 0 ∧ (0 * modInverse 0 PRIME).tmod PRIME ≠ 1 :=
  modInverse_zero_eq one_lt_PRIME

/-- **C5, amended.** `modInverse` never signals an error: for every modulus
`m > 1` and the non-invertible input `a = 0` (where `gcd 0 m = m ≠ 1`) it
still returns a value, namely the normalised Bézout coefficient `0`, which
satisfies no inverse property. -/
theorem modInverse_no_error_on_noninvertible (m : ℤ) (hm : 1 < m) :
    modInverse 0 m = 0 ∧ (0 * modInverse 0 m).tmod m ≠ 1 :=
  modInverse_zero_eq hm

/-- Witness for the amended C5 at the concrete modulus `m = 3`. -/
theorem modInverse_no_error_on_noninvertible_witness :
    (1 : ℤ) < 3 ∧ (modInverse 0 3 = 0 ∧ (0 * modInverse 0 3).tmod 3 ≠ 1) :=
  ⟨by norm_num, modInverse_no_error_on_noninvertible 3 (by norm_num)⟩

/-! ## Byte encoding: `stringToBigInt` / `bigIntToString` round trip -/

theorem shiftLeft_or_eq (r b : ℕ) (hb : b < 256) : (r <<< 8) ||| b = r * 256 + b := by
  have h1 : r <<< 8 = 2 ^ 8 * r := by
    rw [Nat.shiftLeft_eq]; ring
  have h2 := Nat.mul_add_lt_is_or (i := 8) (by simpa using hb) r
  rw [h1, ← h2]
  ring

theorem foldl_stringToBigInt (bytes : List ℕ) (h256 : ∀ b ∈ bytes, b < 256) :
    ∀ init : ℕ,
      bytes.foldl (fun r b => (r <<< 8) ||| b) init
        = init * 256 ^ bytes.length + Nat.ofDigits 256 bytes.reverse := by
  induction bytes with
  | nil => intro init; simp [Nat.ofDigits]
  | cons b bs ih =>
    intro init
    have hb : b < 256 := h256 b (List.mem_cons_self b bs)
    rw [List.foldl_cons, shiftLeft_or_eq init b hb,
      ih (fun x hx => h256 x (List.mem_cons_of_mem b hx))]
    rw [List.reverse_cons, Nat.ofDigits_append]
    simp [Nat.ofDigits_singleton]
    ring

theorem bigIntToStringLoop_eq (n : ℕ) : bigIntToStringLoop n = (Nat.digits 256 n).reverse := by
  induction n using Nat.strong_induction_on with
  | _ n ih =>
    match n with
    | 0 => simp [bigIntToStringLoop]
    | m + 1 =>
      rw [bigIntToStringLoop]
      have hq : (m + 1) >>> 8 = (m + 1) / 256 := by
        rw [Nat.shiftRight_eq_div_pow]
      have hm : (m + 1) &&& 0xFF = (m + 1) % 256 := by
        simpa using Nat.and_pow_two_sub_one_eq_mod (m + 1) 8
      rw [hq, hm, ih ((m + 1) / 256) (Nat.div_lt_self (Nat.succ_pos m) (by norm_num))]
      rw [Nat.digits_def' (by norm_num : (1 : ℕ) < 256) (Nat.succ_pos m)]
      simp

/-- The decode-encode round trip on byte strings without leading zero bytes. -/
theorem bigIntToString_stringToBigInt (bytes : List ℕ) (h256 : ∀ b ∈ bytes, b < 256)
    (hhead : ∀ h : bytes ≠ [], bytes.head h ≠ 0) :
    bigIntToString (stringToBigInt bytes) = bytes := by
  rw [bigIntToString, stringToBigInt]
  have h1 : bytes.foldl (fun r b => (r <<< 8) ||| b) 0 = Nat.ofDigits 256 bytes.reverse := by
    rw [foldl_stringToBigInt bytes h256 0]
    simp
  rw [h1, Int.toNat_natCast, bigIntToStringLoop_eq,
    Nat.digits_ofDigits 256 (by norm_num) bytes.reverse
      (fun l hl => h256 l (List.mem_reverse.mp hl))
      (fun h => by
        rw [List.getLast_reverse]
        exact hhead (by simpa using h)),
    List.reverse_reverse]

/-! ## Casting the mod-`PRIME` computations into the field `Fp` -/

theorem getD_lt_eq {α : Type} (l : List α) (d : α) {i : ℕ} (h : i < l.length) :
    l.getD i d = l[i] := by
  rw [List.getD_eq_getElem?_getD, List.getElem?_eq_getElem h]
  rfl

theorem cast_foldl_sum (t : ℕ → ℤ) :
    ∀ n : ℕ,
      (((List.range n).foldl (fun acc i => (acc + t i).tmod PRIME) 0 : ℤ) : Fp)
        = ∑ i ∈ Finset.range n, ((t i : ℤ) : Fp) := by
  intro n
  induction n with
  | zero => simp
  | succ n ihn =>
    rw [List.range_succ, List.foldl_append, List.foldl_cons, List.foldl_nil, cast_tmod]
    push_cast
    rw [ihn, Finset.sum_range_succ]

theorem cast_foldl_prod (g : ℕ → ℤ) (i : ℕ) :
    ∀ n : ℕ,
      (((List.range n).foldl
          (fun acc j => if i = j then acc else (acc * g j).tmod PRIME) 1 : ℤ) : Fp)
        = ∏ j ∈ (Finset.range n).erase i, ((g j : ℤ) : Fp) := by
  intro n
  induction n with
  | zero => simp
  | succ n ihn =>
    rw [List.range_succ, List.foldl_append, List.foldl_cons, List.foldl_nil]
    by_cases hin : i = n
    · subst hin
      rw [if_pos rfl, ihn, Finset.range_succ,
        Finset.erase_insert Finset.not_mem_range_self,
        Finset.erase_eq_of_not_mem Finset.not_mem_range_self]
    · rw [if_neg hin, cast_tmod]
      push_cast
      rw [ihn, Finset.range_succ, Finset.erase_insert_of_ne (Ne.symm hin),
        Finset.prod_insert (fun hmem => Finset.not_mem_range_self
          (Finset.mem_of_mem_erase hmem))]
      ring

theorem lagNumerator_range (xs : List ℕ) (i : ℕ) :
    -PRIME < lagNumerator xs i ∧ lagNumerator xs i < PRIME := by
  apply foldl_tmod_range
  · intro acc j
    by_cases h : i = j
    · left; exact if_pos h
    · right; exact ⟨_, if_neg h⟩
  · linarith [one_lt_PRIME]
  · exact one_lt_PRIME

theorem lagDenominator_range (xs : List ℕ) (i : ℕ) :
    -PRIME < lagDenominator xs i ∧ lagDenominator xs i < PRIME := by
  apply foldl_tmod_range
  · intro acc j
    by_cases h : i = j
    · left; exact if_pos h
    · right; exact ⟨_, if_neg h⟩
  · linarith [one_lt_PRIME]
  · exact one_lt_PRIME

/-- The natural-number entries of `xs` are distinguishable after casting to
`Fp` as long as they are below the modulus. -/
theorem natCast_inj_of_lt {a b : ℕ} (ha : a < NPRIME) (hb : b < NPRIME)
    (h : (a : Fp) = (b : Fp)) : a = b := by
  have h1 := congrArg ZMod.val h
  rwa [ZMod.val_cast_of_lt ha, ZMod.val_cast_of_lt hb] at h1

/-- Cast of the (spec-modelled) `lagrangeCoefficient` into `Fp`: it is the
Lagrange basis polynomial for node `i` evaluated at `0`. -/
theorem cast_lagrangeCoefficient (xs : List ℕ) (i : ℕ)
    (hnd : xs.Nodup) (hlt : ∀ x ∈ xs, x < NPRIME) (hi : i < xs.length) :
    ((lagrangeCoefficient xs i : ℤ) : Fp)
      = (∏ j ∈ (Finset.range xs.length).erase i, (-((xs.getD j 0 : ℕ) : Fp)))
        * (∏ j ∈ (Finset.range xs.length).erase i,
            (((xs.getD i 0 : ℕ) : Fp) - ((xs.getD j 0 : ℕ) : Fp)))⁻¹ := by
  have hnum : ((lagNumerator xs i : ℤ) : Fp)
      = ∏ j ∈ (Finset.range xs.length).erase i, (-((xs.getD j 0 : ℕ) : Fp)) := by
    rw [lagNumerator]
    exact (cast_foldl_prod _ i xs.length).trans
      (Finset.prod_congr rfl fun j _ => by push_cast; ring)
  have hden : ((lagDenominator xs i : ℤ) : Fp)
      = ∏ j ∈ (Finset.range xs.length).erase i,
          (((xs.getD i 0 : ℕ) : Fp) - ((xs.getD j 0 : ℕ) : Fp)) := by
    rw [lagDenominator]
    exact (cast_foldl_prod _ i xs.length).trans
      (Finset.prod_congr rfl fun j _ => by push_cast; ring)
  have hprod_ne : (∏ j ∈ (Finset.range xs.length).erase i,
      (((xs.getD i 0 : ℕ) : Fp) - ((xs.getD j 0 : ℕ) : Fp))) ≠ 0 := by
    rw [Finset.prod_ne_zero_iff]
    intro j hj
    obtain ⟨hji, hjr⟩ := Finset.mem_erase.mp hj
    have hjlen := Finset.mem_range.mp hjr
    intro heq
    apply hji
    have heq2 : ((xs.getD i 0 : ℕ) : Fp) = ((xs.getD j 0 : ℕ) : Fp) := by
      have := sub_eq_zero.mp heq
      exact this.symm ▸ rfl
    have hgi : xs.getD i 0 = xs[i] := getD_lt_eq xs 0 hi
    have hgj : xs.getD j 0 = xs[j] := getD_lt_eq xs 0 hjlen
    have hlti : xs.getD i 0 < NPRIME := by
      rw [hgi]; exact hlt _ (List.getElem_mem _)
    have hltj : xs.getD j 0 < NPRIME := by
      rw [hgj]; exact hlt _ (List.getElem_mem _)
    have heq3 : xs.getD i 0 = xs.getD j 0 := natCast_inj_of_lt hlti hltj heq2
    rw [hgi, hgj] at heq3
    exact ((hnd.getElem_inj_iff).mp heq3).symm
  set D := ensurePositive (lagDenominator xs i) with hD
  have hDrange : 0 ≤ D ∧ D < PRIME :=
    ensurePositive_nonneg (lagDenominator_range xs i).2
  have hDcast : ((D : ℤ) : Fp)
      = ∏ j ∈ (Finset.range xs.length).erase i,
          (((xs.getD i 0 : ℕ) : Fp) - ((xs.getD j 0 : ℕ) : Fp)) := by
    rw [hD, cast_ensurePositive]
    exact hden
  have hDne : D ≠ 0 := by
    intro h0
    rw [h0] at hDcast
    exact hprod_ne (by simpa using hDcast.symm)
  have hDpos : 0 < D := lt_of_le_of_ne hDrange.1 (Ne.symm hDne)
  rw [lagrangeCoefficient, cast_tmod]
  push_cast
  rw [cast_ensurePositive, hnum, ← hD, cast_modInverse hDpos hDrange.2, hDcast]

/-! ## The Horner evaluation as a polynomial over `Fp` -/

theorem evaluatePolynomial_cons (c : ℤ) (rest : List ℤ) (x : ℕ) :
    evaluatePolynomial (c :: rest) x
      = (evaluatePolynomial rest x * (x : ℤ) + c).tmod PRIME := rfl

/-- Every coefficient list denotes a polynomial over `Fp` of degree below its
length whose evaluations match the Horner loop `evaluatePolynomial`. -/
theorem exists_poly (coeffs : List ℤ) :
    ∃ f : Polynomial Fp, f.degree < (coeffs.length : ℕ) ∧
      f.eval 0 = ((coeffs.headD 0 : ℤ) : Fp) ∧
      ∀ xn : ℕ, ((evaluatePolynomial coeffs xn : ℤ) : Fp) = f.eval ((xn : ℕ) : Fp) := by
  induction coeffs with
  | nil =>
    refine ⟨0, ?_, by simp, ?_⟩
    · rw [Polynomial.degree_zero]
      exact_mod_cast WithBot.bot_lt_coe (0 : ℕ)
    · intro xn
      simp [evaluatePolynomial]
  | cons c rest ih =>
    obtain ⟨p, hdeg, _, hev⟩ := ih
    refine ⟨Polynomial.C ((c : ℤ) : Fp) + Polynomial.X * p, ?_, by simp, ?_⟩
    · apply lt_of_le_of_lt (Polynomial.degree_add_le _ _)
      rw [max_lt_iff]
      constructor
      · apply lt_of_le_of_lt Polynomial.degree_C_le
        exact_mod_cast WithBot.coe_lt_coe.mpr (Nat.succ_pos rest.length)
      · apply lt_of_le_of_lt (Polynomial.degree_mul_le _ _)
        rw [Polynomial.degree_X]
        cases hdp : p.degree with
        | bot =>
          rw [WithBot.add_bot, Nat.cast_withBot]
          exact WithBot.bot_lt_coe _
        | coe d =>
          rw [hdp] at hdeg
          rw [Nat.cast_withBot] at hdeg
          have hd : d < rest.length := WithBot.coe_lt_coe.mp hdeg
          rw [Nat.cast_withBot]
          show ((1 : ℕ) : WithBot ℕ) + ((d : ℕ) : WithBot ℕ) < _
          rw [Nat.cast_withBot, Nat.cast_withBot, ← WithBot.coe_add]
          refine WithBot.coe_lt_coe.mpr ?_
          simp only [List.length_cons]
          omega
    · intro xn
      rw [evaluatePolynomial_cons, cast_tmod]
      push_cast
      rw [hev xn]
      simp only [Polynomial.eval_add, Polynomial.eval_mul, Polynomial.eval_C,
        Polynomial.eval_X]
      ring

/-! ## Lagrange interpolation at `x = 0` -/

/-- The interpolation identity behind both `reconstructSecret` and the
handover recombination: summing `f(vᵢ)` against the Lagrange basis evaluated
at `0` recovers `f(0)`. -/
theorem lagrange_sum (n : ℕ) (v : ℕ → Fp) (f : Polynomial Fp)
    (hv : Set.InjOn v (Finset.range n)) (hdeg : f.degree < (n : ℕ)) :
    ∑ i ∈ Finset.range n, f.eval (v i)
        * ((∏ j ∈ (Finset.range n).erase i, (-(v j)))
          * (∏ j ∈ (Finset.range n).erase i, (v i - v j))⁻¹)
      = f.eval 0 := by
  have hdeg' : f.degree < (Finset.range n).card := by rwa [Finset.card_range]
  have h1 := Lagrange.eq_interpolate hv hdeg'
  conv_rhs => rw [h1]
  rw [Lagrange.interpolate_apply, Polynomial.eval_finset_sum]
  apply Finset.sum_congr rfl
  intro i _
  rw [Polynomial.eval_mul, Polynomial.eval_C]
  congr 1
  symm
  rw [Lagrange.basis, Polynomial.eval_prod]
  calc ∏ j ∈ (Finset.range n).erase i, (Lagrange.basisDivisor (v i) (v j)).eval 0
      = ∏ j ∈ (Finset.range n).erase i, ((v i - v j)⁻¹ * (-(v j))) := by
        apply Finset.prod_congr rfl
        intro j _
        rw [Lagrange.basisDivisor]
        simp only [Polynomial.eval_mul, Polynomial.eval_C, Polynomial.eval_sub,
          Polynomial.eval_X]
        ring
    _ = (∏ j ∈ (Finset.range n).erase i, (v i - v j)⁻¹)
          * ∏ j ∈ (Finset.range n).erase i, (-(v j)) := Finset.prod_mul_distrib
    _ = (∏ j ∈ (Finset.range n).erase i, (-(v j)))
          * (∏ j ∈ (Finset.range n).erase i, (v i - v j))⁻¹ := by
        rw [Finset.prod_inv_distrib]
        ring

/-- The `x` coordinates of a share list, as accessed in the inner loops. -/
theorem xs_getD (shares : List Share) {i : ℕ} (h : i < shares.length) :
    (shares.map (·.x)).getD i 0 = (shares.getD i defaultShare).x := by
  rw [getD_lt_eq _ _ (by simpa using h), getD_lt_eq _ _ h, List.getElem_map]

/-- Master specification of the reconstruction loop: if all shares lie on a
polynomial `f` over `Fp` of degree below the number of shares, and the `x`
coordinates are distinct and below the modulus, the reconstructed field
element is exactly `f(0)`. -/
theorem reconstructNum_spec (shares : List Share) (f : Polynomial Fp)
    (hdeg : f.degree < (shares.length : ℕ))
    (hnd : (shares.map (·.x)).Nodup)
    (hlt : ∀ sh ∈ shares, sh.x < NPRIME)
    (hy : ∀ i : ℕ, i < shares.length →
      (((shares.getD i defaultShare).y : ℤ) : Fp)
        = f.eval (((shares.getD i defaultShare).x : ℕ) : Fp)) :
    reconstructNum shares = ((f.eval 0).val : ℤ) := by
  set xs := shares.map (·.x) with hxs
  have hxslen : xs.length = shares.length := by rw [hxs, List.length_map]
  set v : ℕ → Fp := fun j => ((xs.getD j 0 : ℕ) : Fp) with hv
  have hxlt : ∀ x ∈ xs, x < NPRIME := by
    intro x hx
    rw [hxs] at hx
    obtain ⟨sh, hsh, rfl⟩ := List.mem_map.mp hx
    exact hlt sh hsh
  have hinj : Set.InjOn v (Finset.range shares.length) := by
    intro i hi j hj hij
    simp only [Finset.coe_insert, Set.mem_setOf_eq, Finset.coe_range, Set.mem_Iio] at hi hj
    have hi' : i < xs.length := by omega
    have hj' : j < xs.length := by omega
    have h1 : xs.getD i 0 = xs.getD j 0 := by
      apply natCast_inj_of_lt _ _ hij
      · rw [getD_lt_eq _ _ hi']; exact hxlt _ (List.getElem_mem _)
      · rw [getD_lt_eq _ _ hj']; exact hxlt _ (List.getElem_mem _)
    rw [getD_lt_eq _ _ hi', getD_lt_eq _ _ hj'] at h1
    exact hnd.getElem_inj_iff.mp h1
  have hcast : ((reconstructNum shares : ℤ) : Fp) = f.eval 0 := by
    rw [reconstructNum, cast_ensurePositive, cast_foldl_sum (shareTerm shares) shares.length]
    have hterm : ∀ i ∈ Finset.range shares.length,
        ((shareTerm shares i : ℤ) : Fp)
          = f.eval (v i)
            * ((∏ j ∈ (Finset.range shares.length).erase i, (-(v j)))
              * (∏ j ∈ (Finset.range shares.length).erase i, (v i - v j))⁻¹) := by
      intro i hi
      have hi' := Finset.mem_range.mp hi
      have hvx : xs.getD i 0 = (shares.getD i defaultShare).x := by
        rw [hxs]
        exact xs_getD shares hi'
      simp only [hv]
      rw [shareTerm, cast_tmod]
      push_cast
      rw [hy i hi', ← hxs, cast_lagrangeCoefficient xs i hnd hxlt (by omega), hxslen, hvx]
    rw [Finset.sum_congr rfl hterm]
    exact lagrange_sum shares.length v f hinj hdeg
  have hrange : 0 ≤ reconstructNum shares ∧ reconstructNum shares < PRIME := by
    apply ensurePositive_nonneg
    refine (foldl_tmod_range ?_ (List.range shares.length) 0 (by linarith [PRIME_pos])
      PRIME_pos).2
    intro acc j
    exact Or.inr ⟨_, rfl⟩
  obtain ⟨zn, hzn⟩ : ∃ zn : ℕ, reconstructNum shares = (zn : ℤ) :=
    ⟨(reconstructNum shares).toNat, (Int.toNat_of_nonneg hrange.1).symm⟩
  rw [hzn] at hcast hrange ⊢
  have hznlt : zn < NPRIME := by
    have := hrange.2
    rw [PRIME_eq_natCast] at this
    exact_mod_cast this
  rw [← hcast]
  push_cast
  rw [ZMod.val_cast_of_lt hznlt]

/-! ## Claim C1: Shamir round trip -/

/-- **C1.** For every string `s` whose big-endian byte encoding is less than
the prime modulus `2^127 - 1` and has no leading zero bytes, and for all
`n ≥ threshold ≥ 1` (the share count necessarily within the field, `n < PRIME`),
and for every choice of the random polynomial coefficients (the tape),
`reconstructSecret` applied to the first `threshold` shares of
`createShares s n threshold` returns `s`. -/
theorem createShares_reconstruct (s : List ℕ) (n t : ℕ) (tape : ℕ → ℤ)
    (hbytes : ∀ b ∈ s, b < 256)
    (hhead : ∀ h : s ≠ [], s.head h ≠ 0)
    (hsecret : stringToBigInt s < PRIME)
    (ht : 1 ≤ t) (htn : t ≤ n) (hn : (n : ℤ) < PRIME) :
    reconstructSecret ((createShares s n t tape).take t) = s := by
  set coeffs : List ℤ := stringToBigInt s :: (List.range (t - 1)).map tape with hcoeffs
  obtain ⟨f, hdeg, hev0, hev⟩ := exists_poly coeffs
  set shares := (createShares s n t tape).take t with hsh
  have hshape : shares
      = (List.range t).map
          (fun i => Share.mk i (i + 1) (evaluatePolynomial coeffs (i + 1))) := by
    have h1 : createShares s n t tape
        = (List.range n).map
            (fun i => Share.mk i (i + 1) (evaluatePolynomial coeffs (i + 1))) := rfl
    rw [hsh, h1, ← List.map_take, List.take_range, Nat.min_eq_left htn]
  have hlen : shares.length = t := by
    rw [hshape, List.length_map, List.length_range]
  have hclen : coeffs.length = t := by
    rw [hcoeffs, List.length_cons, List.length_map, List.length_range]
    omega
  have hnN : n < NPRIME := by
    rw [PRIME_eq_natCast] at hn
    exact_mod_cast hn
  have hgetD : ∀ i, i < t →
      shares.getD i defaultShare
        = Share.mk i (i + 1) (evaluatePolynomial coeffs (i + 1)) := by
    intro i hi
    rw [hshape, getD_lt_eq _ _ (by simpa using hi), List.getElem_map, List.getElem_range]
  have hrec : reconstructNum shares = ((f.eval 0).val : ℤ) := by
    apply reconstructNum_spec shares f
    · rw [hlen, ← hclen]
      exact hdeg
    · rw [hshape, List.map_map]
      exact (List.nodup_range t).map (fun a b h => by simpa using h)
    · intro sh hsh2
      rw [hshape] at hsh2
      obtain ⟨i, hi, rfl⟩ := List.mem_map.mp hsh2
      have hit := List.mem_range.mp hi
      show i + 1 < NPRIME
      omega
    · intro i hi
      rw [hlen] at hi
      rw [hgetD i hi]
      exact hev (i + 1)
  have hs0 : f.eval 0 = ((stringToBigInt s : ℤ) : Fp) := by
    rw [hev0, hcoeffs, List.headD_cons]
  obtain ⟨sN, hsN⟩ : ∃ sN : ℕ, stringToBigInt s = (sN : ℤ) :=
    ⟨s.foldl (fun result b => (result <<< 8) ||| b) 0, rfl⟩
  have hsNlt : sN < NPRIME := by
    rw [hsN, PRIME_eq_natCast] at hsecret
    exact_mod_cast hsecret
  have hval : ((f.eval 0).val : ℤ) = stringToBigInt s := by
    rw [hs0, hsN]
    push_cast
    rw [ZMod.val_cast_of_lt hsNlt]
  rw [reconstructSecret, hrec, hval]
  exact bigIntToString_stringToBigInt s hbytes hhead

/-- The UTF-8 bytes of the spec's concrete secret `"HELLO"`. -/
def helloBytes : List ℕ := [72, 69, 76, 76, 79]

set_option maxRecDepth 20000 in
/-- Witness for C1: the "HELLO" scenario with `n = 5`, `threshold = 3` and a
concrete coefficient tape. -/
theorem createShares_reconstruct_witness :
    ((∀ b ∈ helloBytes, b < 256) ∧
      (∀ h : helloBytes ≠ [], helloBytes.head h ≠ 0) ∧
      stringToBigInt helloBytes < PRIME ∧
      1 ≤ 3 ∧ 3 ≤ 5 ∧ ((5 : ℕ) : ℤ) < PRIME) ∧
    reconstructSecret
        ((createShares helloBytes 5 3 (fun i => (i + 1 : ℤ))).take 3)
      = helloBytes :=
  ⟨⟨by decide, by intro h; show (72 : ℕ) ≠ 0; decide, by decide, by norm_num, by norm_num, by decide⟩,
    createShares_reconstruct helloBytes 5 3 (fun i => (i + 1 : ℤ))
      (by decide) (by intro h; show (72 : ℕ) ≠ 0; decide) (by decide) (by norm_num) (by norm_num) (by decide)⟩

/-! ## Claim C2: handover preservation -/

theorem enum_getElem {α : Type} (l : List α) (i : ℕ) (h : i < l.enum.length) :
    l.enum[i] = (i, l.get ⟨i, by simpa [List.enum_eq_enumFrom, List.enumFrom_length] using h⟩) := by
  simp only [List.enum_eq_enumFrom, List.getElem_enumFrom]
  simp

theorem enum_length {α : Type} (l : List α) : l.enum.length = l.length := by
  rw [List.enum_eq_enumFrom, List.enumFrom_length]

/-- Cast of the handover recombination sum into `Fp`. -/
theorem cast_computeNewShareValue (subs : List ℤ) (oldIdx : List ℕ) :
    ((computeNewShareValue subs oldIdx : ℤ) : Fp)
      = ∑ j ∈ Finset.range subs.length,
          ((lagrangeCoefficient oldIdx j : ℤ) : Fp) * ((subs.getD j 0 : ℤ) : Fp) := by
  rw [computeNewShareValue, cast_ensurePositive, cast_foldl_sum]
  apply Finset.sum_congr rfl
  intro j _
  rw [cast_tmod]
  push_cast
  ring

/-- The value of one entry of the handover sub-share matrix. -/
theorem subShareMatrix_entry (oldShares : List Share) (thr numNew : ℕ)
    (subTapes : ℕ → ℕ → ℤ) {j k : ℕ} (hj : j < oldShares.length) (hk : k < numNew) :
    ((oldShares.enum.map (fun p => (List.range numNew).map (fun k2 =>
        evaluatePolynomial (p.2.y :: (List.range (thr - 1)).map (subTapes p.1))
          (k2 + 1)))).getD j []).getD k 0
      = evaluatePolynomial ((oldShares.getD j defaultShare).y
          :: (List.range (thr - 1)).map (subTapes j)) (k + 1) := by
  have hj2 : j < (oldShares.enum.map (fun p => (List.range numNew).map (fun k2 =>
      evaluatePolynomial (p.2.y :: (List.range (thr - 1)).map (subTapes p.1))
        (k2 + 1)))).length := by
    rw [List.length_map, enum_length]
    exact hj
  rw [getD_lt_eq _ _ hj2, List.getElem_map, enum_getElem]
  have hk2 : k < ((List.range numNew).map (fun k2 =>
      evaluatePolynomial ((oldShares.get ⟨j, by simpa [enum_length] using hj⟩).y
        :: (List.range (thr - 1)).map (subTapes j)) (k2 + 1))).length := by
    rw [List.length_map, List.length_range]
    exact hk
  rw [getD_lt_eq _ _ hk2, List.getElem_map, List.getElem_range, getD_lt_eq _ _ hj,
    List.get_eq_getElem]

/-- The shape of the handover output: one share per new seat `k + 1`. -/
theorem handoverShares_shape (oldShares : List Share) (thr numNew : ℕ)
    (subTapes : ℕ → ℕ → ℤ) :
    handoverShares oldShares thr numNew subTapes
      = (List.range numNew).map (fun k => Share.mk k (k + 1)
          (computeNewShareValue
            ((List.range thr).map (fun j =>
              (((oldShares.enum.map (fun p => (List.range numNew).map (fun k2 =>
                evaluatePolynomial (p.2.y :: (List.range (thr - 1)).map (subTapes p.1))
                  (k2 + 1)))).getD j []).getD k 0)))
            ((oldShares.map (·.x)).take thr))) := rfl

/-- **C2.** Splitting a secret into initial shares, running one handover cycle
(each old holder re-splits its share via the `createSubShares` polynomial with
random tape `subTapes j`, then each new holder recombines the first
`threshold` old holders' sub-shares with their original x-coordinates as
`computeNewShareFromSubShares` does), and then reconstructing from any
`threshold` of the resulting new shares returns the secret, for every choice
of the random sub-share polynomial coefficients. -/
theorem handover_preserves (s : List ℕ) (n t numNew : ℕ) (tape : ℕ → ℤ)
    (subTapes : ℕ → ℕ → ℤ) (sel : List Share)
    (hbytes : ∀ b ∈ s, b < 256)
    (hhead : ∀ h : s ≠ [], s.head h ≠ 0)
    (hsecret : stringToBigInt s < PRIME)
    (ht : 1 ≤ t) (htn : t ≤ n) (hn : (n : ℤ) < PRIME)
    (hnew : (numNew : ℤ) < PRIME)
    (hsel : sel.Sublist (handoverShares (createShares s n t tape) t numNew subTapes))
    (hlen : sel.length = t) :
    reconstructSecret sel = s := by
  have hnN : n < NPRIME := by rw [PRIME_eq_natCast] at hn; exact_mod_cast hn
  have hnewN : numNew < NPRIME := by rw [PRIME_eq_natCast] at hnew; exact_mod_cast hnew
  set coeffs0 : List ℤ := stringToBigInt s :: (List.range (t - 1)).map tape with hc0
  obtain ⟨H, hHdeg, hHev0, hHev⟩ := exists_poly coeffs0
  have hclen0 : coeffs0.length = t := by
    rw [hc0, List.length_cons, List.length_map, List.length_range]
    omega
  set oldShares := createShares s n t tape with hOld
  have holdshape : oldShares = (List.range n).map
      (fun i => Share.mk i (i + 1) (evaluatePolynomial coeffs0 (i + 1))) := rfl
  have holdgetD : ∀ j, j < n → oldShares.getD j defaultShare
      = Share.mk j (j + 1) (evaluatePolynomial coeffs0 (j + 1)) := by
    intro j hj
    rw [holdshape, getD_lt_eq _ _ (by simpa using hj), List.getElem_map, List.getElem_range]
  set oldIdx := (oldShares.map (·.x)).take t with hIdx
  have hIdxeq : oldIdx = (List.range t).map (· + 1) := by
    rw [hIdx, holdshape, List.map_map, ← List.map_take, List.take_range, Nat.min_eq_left htn]
    rfl
  have hIdxlen : oldIdx.length = t := by rw [hIdxeq, List.length_map, List.length_range]
  have hIdxgetD : ∀ j, j < t → oldIdx.getD j 0 = j + 1 := by
    intro j hj
    rw [hIdxeq, getD_lt_eq _ _ (by simpa using hj), List.getElem_map, List.getElem_range]
  have hIdxnodup : oldIdx.Nodup := by
    rw [hIdxeq]
    exact (List.nodup_range t).map (fun a b h => by simpa using h)
  have hIdxlt : ∀ x ∈ oldIdx, x < NPRIME := by
    intro x hx
    rw [hIdxeq] at hx
    obtain ⟨i, hi, rfl⟩ := List.mem_map.mp hx
    have := List.mem_range.mp hi
    omega
  have hGex : ∀ j : ℕ, ∃ Gp : Polynomial Fp,
      Gp.degree < ((t : ℕ) : WithBot ℕ) ∧
      Gp.eval 0 = (((oldShares.getD j defaultShare).y : ℤ) : Fp) ∧
      ∀ k : ℕ, ((evaluatePolynomial ((oldShares.getD j defaultShare).y
          :: (List.range (t - 1)).map (subTapes j)) k : ℤ) : Fp) = Gp.eval (k : Fp) := by
    intro j
    obtain ⟨Gp, h1, h2, h3⟩ := exists_poly
      ((oldShares.getD j defaultShare).y :: (List.range (t - 1)).map (subTapes j))
    refine ⟨Gp, ?_, ?_, h3⟩
    · have hl : ((oldShares.getD j defaultShare).y
          :: (List.range (t - 1)).map (subTapes j)).length = t := by
        rw [List.length_cons, List.length_map, List.length_range]
        omega
      rwa [hl] at h1
    · rwa [List.headD_cons] at h2
  choose G hGdeg hGev0 hGev using hGex
  set lam : ℕ → Fp := fun j => ((lagrangeCoefficient oldIdx j : ℤ) : Fp) with hlam
  set Hp : Polynomial Fp := ∑ j ∈ Finset.range t, Polynomial.C (lam j) * G j with hHp
  have hHpdeg : Hp.degree < ((t : ℕ) : WithBot ℕ) := by
    rw [hHp]
    apply lt_of_le_of_lt (Polynomial.degree_sum_le _ _)
    rw [Finset.sup_lt_iff (by rw [Nat.cast_withBot]; exact WithBot.bot_lt_coe t)]
    intro j _
    calc (Polynomial.C (lam j) * G j).degree
        ≤ (Polynomial.C (lam j)).degree + (G j).degree := Polynomial.degree_mul_le _ _
      _ ≤ 0 + (G j).degree := add_le_add_right Polynomial.degree_C_le _
      _ = (G j).degree := zero_add _
      _ < ((t : ℕ) : WithBot ℕ) := hGdeg j
  have hHpev : ∀ xv : Fp, Hp.eval xv = ∑ j ∈ Finset.range t, lam j * (G j).eval xv := by
    intro xv
    rw [hHp, Polynomial.eval_finset_sum]
    apply Finset.sum_congr rfl
    intro j _
    rw [Polynomial.eval_mul, Polynomial.eval_C]
  have hHp0 : Hp.eval 0 = ((stringToBigInt s : ℤ) : Fp) := by
    rw [hHpev 0]
    have hstep : ∀ j ∈ Finset.range t,
        lam j * (G j).eval 0
          = H.eval (((oldIdx.getD j 0 : ℕ) : Fp))
            * ((∏ j2 ∈ (Finset.range t).erase j, (-((oldIdx.getD j2 0 : ℕ) : Fp)))
              * (∏ j2 ∈ (Finset.range t).erase j,
                  (((oldIdx.getD j 0 : ℕ) : Fp) - ((oldIdx.getD j2 0 : ℕ) : Fp)))⁻¹) := by
      intro j hj
      have hjt := Finset.mem_range.mp hj
      rw [hGev0 j, holdgetD j (by omega)]
      have hy : ((evaluatePolynomial coeffs0 (j + 1) : ℤ) : Fp)
          = H.eval (((j + 1 : ℕ) : Fp)) := hHev (j + 1)
      rw [show (Share.mk j (j + 1) (evaluatePolynomial coeffs0 (j + 1))).y
            = evaluatePolynomial coeffs0 (j + 1) from rfl, hy]
      simp only [hlam]
      rw [cast_lagrangeCoefficient oldIdx j hIdxnodup hIdxlt (by omega), hIdxlen,
        hIdxgetD j hjt]
      ring
    rw [Finset.sum_congr rfl hstep]
    have hinj : Set.InjOn (fun j => ((oldIdx.getD j 0 : ℕ) : Fp)) (Finset.range t) := by
      intro a ha b hb hab
      simp only [Finset.coe_range, Set.mem_Iio] at ha hb
      have hab2 : ((oldIdx.getD a 0 : ℕ) : Fp) = ((oldIdx.getD b 0 : ℕ) : Fp) := hab
      rw [hIdxgetD a ha, hIdxgetD b hb] at hab2
      have := natCast_inj_of_lt (by omega) (by omega) hab2
      omega
    have hls := lagrange_sum t (fun j => ((oldIdx.getD j 0 : ℕ) : Fp)) H hinj
      (by rw [← hclen0]; exact hHdeg)
    rw [hls, hHev0, hc0, List.headD_cons]
  set M := oldShares.enum.map (fun p => (List.range numNew).map (fun k2 =>
    evaluatePolynomial (p.2.y :: (List.range (t - 1)).map (subTapes p.1)) (k2 + 1))) with hM
  set newY : ℕ → ℤ := fun k => computeNewShareValue
    ((List.range t).map (fun j => (M.getD j []).getD k 0)) oldIdx with hnY
  have hNSshape : handoverShares oldShares t numNew subTapes
      = (List.range numNew).map (fun k => Share.mk k (k + 1) (newY k)) := rfl
  have hNewY : ∀ k, k < numNew → ((newY k : ℤ) : Fp) = Hp.eval (((k + 1 : ℕ) : Fp)) := by
    intro k hk
    simp only [hnY]
    rw [cast_computeNewShareValue, hHpev, List.length_map, List.length_range]
    apply Finset.sum_congr rfl
    intro j hj
    have hjt := Finset.mem_range.mp hj
    have hsub : ((List.range t).map (fun j => (M.getD j []).getD k 0)).getD j 0
        = (M.getD j []).getD k 0 := by
      rw [getD_lt_eq _ _ (by simpa using hjt), List.getElem_map, List.getElem_range]
    have hentry := subShareMatrix_entry oldShares t numNew subTapes
      (j := j) (k := k) (by rw [holdshape, List.length_map, List.length_range]; omega) hk
    rw [← hM] at hentry
    rw [hsub, hentry, hGev j (k + 1)]
  have hmemNS : ∀ sh ∈ handoverShares oldShares t numNew subTapes,
      ∃ k, k < numNew ∧ sh = Share.mk k (k + 1) (newY k) := by
    intro sh hsh2
    rw [hNSshape] at hsh2
    obtain ⟨k, hk, rfl⟩ := List.mem_map.mp hsh2
    exact ⟨k, List.mem_range.mp hk, rfl⟩
  have hrec : reconstructNum sel = ((Hp.eval 0).val : ℤ) := by
    apply reconstructNum_spec sel Hp
    · rw [hlen]
      exact hHpdeg
    · have h1 : ((handoverShares oldShares t numNew subTapes).map (·.x)).Nodup := by
        rw [hNSshape, List.map_map]
        exact (List.nodup_range numNew).map (fun a b h => by simpa using h)
      exact (hsel.map (·.x)).nodup h1
    · intro sh hshm
      obtain ⟨k, hk, rfl⟩ := hmemNS sh (hsel.subset hshm)
      show k + 1 < NPRIME
      omega
    · intro i hi
      have hmem : sel.getD i defaultShare ∈ sel := by
        rw [getD_lt_eq _ _ hi]
        exact List.getElem_mem _
      obtain ⟨k, hk, hEq⟩ := hmemNS _ (hsel.subset hmem)
      rw [hEq]
      exact hNewY k hk
  obtain ⟨sN, hsN⟩ : ∃ sN : ℕ, stringToBigInt s = (sN : ℤ) :=
    ⟨s.foldl (fun result b => (result <<< 8) ||| b) 0, rfl⟩
  have hsNlt : sN < NPRIME := by
    rw [hsN, PRIME_eq_natCast] at hsecret
    exact_mod_cast hsecret
  have hval : ((Hp.eval 0).val : ℤ) = stringToBigInt s := by
    rw [hHp0, hsN]
    push_cast
    rw [ZMod.val_cast_of_lt hsNlt]
  rw [reconstructSecret, hrec, hval]
  exact bigIntToString_stringToBigInt s hbytes hhead

set_option maxRecDepth 20000 in
/-- Witness for C2: the "HELLO" secret handed over from 5 shares (threshold 3)
to 5 new seats, reconstructing from the first 3 new shares. -/
theorem handover_preserves_witness :
    ((∀ b ∈ helloBytes, b < 256) ∧
      (∀ h : helloBytes ≠ [], helloBytes.head h ≠ 0) ∧
      stringToBigInt helloBytes < PRIME ∧
      1 ≤ 3 ∧ 3 ≤ 5 ∧ ((5 : ℕ) : ℤ) < PRIME ∧
      ((handoverShares (createShares helloBytes 5 3 (fun i => (i + 1 : ℤ))) 3 5
          (fun j k => (j + 2 * k : ℤ))).take 3).Sublist
        (handoverShares (createShares helloBytes 5 3 (fun i => (i + 1 : ℤ))) 3 5
          (fun j k => (j + 2 * k : ℤ))) ∧
      ((handoverShares (createShares helloBytes 5 3 (fun i => (i + 1 : ℤ))) 3 5
          (fun j k => (j + 2 * k : ℤ))).take 3).length = 3) ∧
    reconstructSecret
        ((handoverShares (createShares helloBytes 5 3 (fun i => (i + 1 : ℤ))) 3 5
          (fun j k => (j + 2 * k : ℤ))).take 3)
      = helloBytes := by
  have hlen3 : ((handoverShares (createShares helloBytes 5 3 (fun i => (i + 1 : ℤ))) 3 5
      (fun j k => (j + 2 * k : ℤ))).take 3).length = 3 := by
    rw [List.length_take, handoverShares_shape, List.length_map, List.length_range]
    norm_num
  refine ⟨⟨by decide, by intro h; show (72 : ℕ) ≠ 0; decide, by decide,
    by norm_num, by norm_num, by decide, List.take_sublist _ _, hlen3⟩, ?_⟩
  exact handover_preserves helloBytes 5 3 5 (fun i => (i + 1 : ℤ))
    (fun j k => (j + 2 * k : ℤ)) _
    (by decide) (by intro h; show (72 : ℕ) ≠ 0; decide) (by decide)
    (by norm_num) (by norm_num) (by decide) (by decide)
    (List.take_sublist _ _) hlen3

/-! ## Claim C8: `checkAndNominate` -/

theorem floor_toNat_lt {q : ℚ} (n : ℕ) (h0 : 0 ≤ q) (h1 : q < 1) (hn : 0 < n) :
    (⌊q * (n : ℚ)⌋).toNat < n := by
  have h2 : ⌊q * (n : ℚ)⌋ < (n : ℤ) := by
    rw [Int.floor_lt]
    push_cast
    calc q * n < 1 * n := by
          apply mul_lt_mul_of_pos_right h1
          exact_mod_cast hn
      _ = n := one_mul _
  omega

theorem checkAndNominate_eq_of_get (nd : NodeState) (allValues : List ℚ) (nomSize : ℕ)
    (availableNodes : List ℕ) (rand : ℚ) (thr : ℚ)
    (h : (allValues.insertionSort (· ≤ ·)).get? (nomSize - 1) = some thr) :
    checkAndNominate nd allValues nomSize availableNodes rand
      = if nd.randomValue ≤ thr then
          some (((availableNodes.filter (fun nodeId => nodeId ≠ nd.id)).get?
            ((⌊rand * ((availableNodes.filter
              (fun nodeId => nodeId ≠ nd.id)).length : ℚ)⌋).toNat)).getD nd.id)
        else none := by
  simp only [checkAndNominate, h]

/-- **C8.** `checkAndNominate` returns some node id iff the node's own current
random value is `≤` the `nominatingSize`-th smallest element of `allValues`
(given a valid `1 ≤ nominatingSize ≤ allValues.length` and a `Math.random()`
draw in `[0, 1)`); when it returns an id, that id is an element of
`availableNodes` different from the node's own id whenever such an element
exists, and is the node's own id otherwise. -/
theorem checkAndNominate_spec (nd : NodeState) (allValues : List ℚ) (nomSize : ℕ)
    (availableNodes : List ℕ) (rand : ℚ)
    (h1 : 1 ≤ nomSize) (h2 : nomSize ≤ allValues.length)
    (hr0 : 0 ≤ rand) (hr1 : rand < 1) :
    ((checkAndNominate nd allValues nomSize availableNodes rand).isSome
      ↔ nd.randomValue ≤ (allValues.insertionSort (· ≤ ·)).getD (nomSize - 1) 0) ∧
    ∀ id, checkAndNominate nd allValues nomSize availableNodes rand = some id →
      ((∃ a ∈ availableNodes, a ≠ nd.id) → (id ∈ availableNodes ∧ id ≠ nd.id)) ∧
      ((¬ ∃ a ∈ availableNodes, a ≠ nd.id) → id = nd.id) := by
  have hslen : (allValues.insertionSort (· ≤ ·)).length = allValues.length :=
    List.length_insertionSort _ _
  have hidx : nomSize - 1 < (allValues.insertionSort (· ≤ ·)).length := by omega
  have hget : (allValues.insertionSort (· ≤ ·)).get? (nomSize - 1)
      = some ((allValues.insertionSort (· ≤ ·)).getD (nomSize - 1) 0) := by
    rw [List.getD_eq_getElem?_getD, List.get?_eq_getElem?,
      List.getElem?_eq_getElem hidx]
    rfl
  have hkey := checkAndNominate_eq_of_get nd allValues nomSize availableNodes rand _ hget
  rw [hkey]
  set cands := availableNodes.filter (fun nodeId => nodeId ≠ nd.id) with hcands
  constructor
  · by_cases hc : nd.randomValue
        ≤ (allValues.insertionSort (· ≤ ·)).getD (nomSize - 1) 0
    · simp [hc]
    · simp [hc]
  · intro id hid
    by_cases hc : nd.randomValue
        ≤ (allValues.insertionSort (· ≤ ·)).getD (nomSize - 1) 0
    · rw [if_pos hc] at hid
      have hid2 : id = (cands.get? (⌊rand * (cands.length : ℚ)⌋).toNat).getD nd.id :=
        (Option.some.inj hid).symm
      constructor
      · rintro ⟨a, ha, hane⟩
        have hmem : a ∈ cands := List.mem_filter.mpr ⟨ha, by simpa using hane⟩
        have hcpos : 0 < cands.length := List.length_pos.mpr (by
          intro h0
          rw [h0] at hmem
          exact absurd hmem (List.not_mem_nil a))
        have hidx2 : (⌊rand * (cands.length : ℚ)⌋).toNat < cands.length :=
          floor_toNat_lt cands.length hr0 hr1 hcpos
        rw [List.get?_eq_getElem?, List.getElem?_eq_getElem hidx2] at hid2
        have hidmem : id ∈ cands := by
          rw [hid2]
          exact List.getElem_mem _
        have := List.mem_filter.mp hidmem
        exact ⟨this.1, by simpa using this.2⟩
      · intro hno
        have hcnil : cands = [] := by
          cases hc2 : cands with
          | nil => rfl
          | cons a as =>
            exfalso
            apply hno
            have hmem : a ∈ cands := by
              rw [hc2]
              exact List.mem_cons_self a as
            have := List.mem_filter.mp hmem
            exact ⟨a, this.1, by simpa using this.2⟩
        rw [hcnil] at hid2
        simpa using hid2
    · rw [if_neg hc] at hid
      exact absurd hid (by simp)

/-- Witness for C8 at a concrete node, draw list and candidate list. -/
theorem checkAndNominate_spec_witness :
    (1 ≤ 2 ∧ 2 ≤ ([(1 : ℚ)/2, 1/4, 3/4] : List ℚ).length ∧
      (0 : ℚ) ≤ 1/3 ∧ (1/3 : ℚ) < 1) ∧
    (((checkAndNominate ⟨4, 1/2, none⟩ [(1 : ℚ)/2, 1/4, 3/4] 2 [4, 7] (1/3)).isSome
      ↔ (⟨4, 1/2, none⟩ : NodeState).randomValue
          ≤ (([(1 : ℚ)/2, 1/4, 3/4].insertionSort (· ≤ ·)).getD (2 - 1) 0)) ∧
    ∀ id, checkAndNominate ⟨4, 1/2, none⟩ [(1 : ℚ)/2, 1/4, 3/4] 2 [4, 7] (1/3) = some id →
      ((∃ a ∈ [4, 7], a ≠ (⟨4, 1/2, none⟩ : NodeState).id) →
        (id ∈ [4, 7] ∧ id ≠ (⟨4, 1/2, none⟩ : NodeState).id)) ∧
      ((¬ ∃ a ∈ [4, 7], a ≠ (⟨4, 1/2, none⟩ : NodeState).id) →
        id = (⟨4, 1/2, none⟩ : NodeState).id)) :=
  ⟨⟨by norm_num, by norm_num, by norm_num, by norm_num⟩,
    checkAndNominate_spec ⟨4, 1/2, none⟩ [(1 : ℚ)/2, 1/4, 3/4] 2 [4, 7] (1/3)
      (by norm_num) (by norm_num) (by norm_num) (by norm_num)⟩

/-! ## Claim C3: `ECPSSSimulator.reconstructSecret` -/

theorem filterMap_share_length (nodes : List NodeState) :
    (nodes.filterMap (·.share)).length
      = (nodes.filter (fun nd => nd.share.isSome)).length := by
  induction nodes with
  | nil => rfl
  | cons nd nds ih =>
    cases h : nd.share <;>
      simp [List.filterMap_cons, List.filter_cons, h, ih]

/-- **C3.** `ECPSSSimulator.reconstructSecret` returns the reconstructed
secret (from the first `threshold` collected shares) when at least `threshold`
nodes currently hold a share, and signals the insufficient-shares failure
(`none`, the embedding of `null`) when fewer do; in both cases it resets the
epoch counter to `0` and resets every node, clearing all held shares and
random values.  The embedding is a total function — no code path throws
(`modInverse` and the share collection are total). -/
theorem simReconstructSecret_spec (st : SimState) :
    ((simReconstructSecret st).1
        = if threshold ≤ countHolders st
          then some (reconstructSecret ((collectShares st).take threshold))
          else none) ∧
    (simReconstructSecret st).2.currentEpoch = 0 ∧
    (simReconstructSecret st).2.nodes = st.nodes.map resetNode ∧
    ∀ nd ∈ (simReconstructSecret st).2.nodes, nd.randomValue = 0 ∧ nd.share = none := by
  have hb : (collectShares st).length = countHolders st := filterMap_share_length st.nodes
  have hsnd : (simReconstructSecret st).2
      = { nodes := st.nodes.map resetNode, currentEpoch := 0 } := by
    simp only [simReconstructSecret]
    split <;> rfl
  refine ⟨?_, by rw [hsnd], by rw [hsnd], ?_⟩
  · by_cases h : threshold ≤ (collectShares st).length
    · have h2 : threshold ≤ countHolders st := hb ▸ h
      simp only [simReconstructSecret, if_pos h, if_pos h2]
    · have h2 : ¬ threshold ≤ countHolders st := by
        rw [← hb]
        exact h
      simp only [simReconstructSecret, if_neg h, if_neg h2]
  · intro nd hnd
    rw [hsnd] at hnd
    simp only [List.mem_map] at hnd
    obtain ⟨nd0, _, rfl⟩ := hnd
    exact ⟨rfl, rfl⟩

/-! ## Claims C6 and C7: `encryptSecret` and idle `keepAlive` -/

theorem mem_of_mem_enum {α : Type} {l : List α} {p : ℕ × α} (h : p ∈ l.enum) : p.2 ∈ l := by
  have h2 := List.mem_map_of_mem Prod.snd h
  rwa [List.enum_eq_enumFrom, List.enumFrom_map_snd] at h2

theorem generateAll_share {nodes : List NodeState} {rvs : ℕ → ℚ} {nd : NodeState}
    (h : nd ∈ generateAll nodes rvs) :
    ∃ nd0 ∈ nodes, nd.share = nd0.share ∧ nd.id = nd0.id := by
  rw [generateAll] at h
  obtain ⟨p, hp, rfl⟩ := List.mem_map.mp h
  exact ⟨p.2, mem_of_mem_enum hp, rfl, rfl⟩

theorem generateAll_map_id (nodes : List NodeState) (rvs : ℕ → ℚ) :
    (generateAll nodes rvs).map (·.id) = nodes.map (·.id) := by
  rw [generateAll, List.map_map]
  have h1 : ((fun x => x.id) ∘ fun p : ℕ × NodeState =>
      { p.2 with randomValue := rvs p.1 }) = ((fun nd => nd.id) ∘ Prod.snd) := by
    funext p
    rfl
  rw [h1, ← List.map_map, List.enum_eq_enumFrom, List.enumFrom_map_snd]

/-- `encryptSecret` always succeeds and bumps the epoch, with no inspection of
the secret at all. -/
theorem simEncryptSecret_ok (secret : List ℕ) (tape : ℕ → ℤ) (er : EpochRand)
    (st : SimState) :
    ∃ st' : SimState, simEncryptSecret secret tape er st = .ok st' ∧
      st'.currentEpoch = st.currentEpoch + 1 :=
  ⟨_, rfl, rfl⟩

/-- **C6, counterexample.** The claim says `ECPSSSimulator.encryptSecret`
fails with an `EmptySecret` error on empty/whitespace input; in fact the code
has no such check: on the empty secret from the idle initial state it succeeds
and starts epoch 1 (the only empty-input guard is in the UI layer `App.vue`,
which silently returns without any error). -/
theorem encryptSecret_accepts_empty :
    ∃ st' : SimState,
      simEncryptSecret [] (fun _ => 0) ⟨fun _ => 0, fun _ => 0, fun _ _ => 0⟩ initialState
        = .ok st' ∧ st'.currentEpoch = 1 :=
  ⟨_, rfl, rfl⟩

/-- **C6, amended.** `ECPSSSimulator.encryptSecret` never fails: for every
input — empty or whitespace included — it succeeds and increments the epoch
(so from the idle state, epoch 1 starts). -/
theorem encryptSecret_always_succeeds (secret : List ℕ) (tape : ℕ → ℤ) (er : EpochRand)
    (st : SimState) :
    ∃ st' : SimState, simEncryptSecret secret tape er st = .ok st' ∧
      st'.currentEpoch = st.currentEpoch + 1 :=
  simEncryptSecret_ok secret tape er st

/-- On a state with no held shares, `keepAlive` runs the election, hits the
`No shares to transfer` warning branch, and returns the nodes with only their
random values regenerated — but with the epoch already incremented. -/
theorem simKeepAlive_idle (er : EpochRand) (st : SimState)
    (hidle : ∀ nd ∈ st.nodes, nd.share = none) :
    simKeepAlive er st
      = .ok { currentEpoch := st.currentEpoch + 1,
              nodes := generateAll st.nodes er.rvs } := by
  have hfil : (generateAll st.nodes er.rvs).filter (fun nd => nd.share.isSome) = [] := by
    rw [List.filter_eq_nil_iff]
    intro nd hnd
    obtain ⟨nd0, hnd0, hsh, _⟩ := generateAll_share hnd
    rw [hsh, hidle nd0 hnd0]
    simp
  rw [simKeepAlive, startNewEpoch]
  show (do
    let nodes2 ← transferShares (generateAll st.nodes er.rvs) _ er.coeffs
    return { currentEpoch := st.currentEpoch + 1, nodes := nodes2 } :
      Except String SimState) = _
  rw [transferShares, hfil]
  rfl

/-- **C7, counterexample.** The claim says calling `keepAlive` while no node
holds a share leaves the protocol state unchanged; in fact the epoch counter
is incremented before the handover's early return: from the idle initial state
(epoch 0) the epoch after `keepAlive` is 1, so the state changed. -/
theorem keepAlive_idle_changes_epoch :
    (okState (simKeepAlive ⟨fun _ => 0, fun _ => 0, fun _ _ => 0⟩ initialState)).currentEpoch
        = 1 ∧
    initialState.currentEpoch = 0 ∧
    okState (simKeepAlive ⟨fun _ => 0, fun _ => 0, fun _ _ => 0⟩ initialState)
      ≠ initialState := by
  have h1 : (okState
      (simKeepAlive ⟨fun _ => 0, fun _ => 0, fun _ _ => 0⟩ initialState)).currentEpoch = 1 := by
    rw [simKeepAlive_idle _ initialState (by decide)]
    rfl
  refine ⟨h1, rfl, fun heq => ?_⟩
  rw [heq] at h1
  exact absurd h1 (by decide)

/-- **C7, amended.** `keepAlive` while idle does not fail and creates no
share: the node ids are preserved and every node still holds no share, and
only a warning is logged by the handover step — but the epoch counter is
incremented and the election regenerates every node's random value. -/
theorem keepAlive_idle_effect (er : EpochRand) (st : SimState)
    (hidle : ∀ nd ∈ st.nodes, nd.share = none) :
    ∃ st', simKeepAlive er st = .ok st' ∧
      st'.currentEpoch = st.currentEpoch + 1 ∧
      st'.nodes.map (·.id) = st.nodes.map (·.id) ∧
      (∀ nd ∈ st'.nodes, nd.share = none) := by
  refine ⟨_, simKeepAlive_idle er st hidle, rfl, generateAll_map_id st.nodes er.rvs, ?_⟩
  intro nd hnd
  obtain ⟨nd0, hnd0, hsh, _⟩ := generateAll_share hnd
  rw [hsh]
  exact hidle nd0 hnd0

/-- Witness for the amended C7 at the idle initial state. -/
theorem keepAlive_idle_effect_witness :
    (∀ nd ∈ initialState.nodes, nd.share = none) ∧
    ∃ st', simKeepAlive ⟨fun _ => 1/2, fun _ => 1/2, fun _ _ => 0⟩ initialState = .ok st' ∧
      st'.currentEpoch = initialState.currentEpoch + 1 ∧
      st'.nodes.map (·.id) = initialState.nodes.map (·.id) ∧
      (∀ nd ∈ st'.nodes, nd.share = none) :=
  ⟨by decide, keepAlive_idle_effect ⟨fun _ => 1/2, fun _ => 1/2, fun _ _ => 0⟩
    initialState (by decide)⟩

/-! ## Claim C10: reachable states give the handover enough sub-share rows -/

/-- The list of node ids `1..totalNodes` in map order. -/
def idsList : List ℕ := (List.range totalNodes).map (· + 1)

/-- Node `i` currently holds a share in the node map `ns`. -/
def holdsShare (ns : List NodeState) (i : ℕ) : Prop :=
  ∃ nd ∈ ns, nd.id = i ∧ nd.share.isSome = true

theorem setShare_map_id (ns : List NodeState) (i : ℕ) (sh : Share) :
    (setShare ns i sh).map (·.id) = ns.map (·.id) := by
  rw [setShare, List.map_map]
  apply List.map_congr_left
  intro nd _
  by_cases h : nd.id = i <;> simp [h]

theorem setShare_holds_self {ns : List NodeState} {i : ℕ} (sh : Share)
    (hmem : i ∈ ns.map (·.id)) : holdsShare (setShare ns i sh) i := by
  obtain ⟨nd, hnd, hid⟩ := List.mem_map.mp hmem
  refine ⟨if nd.id = i then { nd with share := some sh } else nd, ?_, ?_⟩
  · rw [setShare]
    exact List.mem_map_of_mem _ hnd
  · rw [if_pos hid]
    exact ⟨hid, rfl⟩

theorem setShare_holds_mono {ns : List NodeState} {i j : ℕ} (sh : Share)
    (h : holdsShare ns j) : holdsShare (setShare ns i sh) j := by
  obtain ⟨nd, hnd, hid, hsome⟩ := h
  refine ⟨if nd.id = i then { nd with share := some sh } else nd, ?_, ?_⟩
  · rw [setShare]
    exact List.mem_map_of_mem _ hnd
  · by_cases hcase : nd.id = i
    · rw [if_pos hcase]
      exact ⟨hid, rfl⟩
    · rw [if_neg hcase]
      exact ⟨hid, hsome⟩

theorem foldl_setShare_map_id (m : ℕ) (tg : ℕ → ℕ) (sh : ℕ → Share) (ns : List NodeState) :
    (((List.range m).foldl (fun ns k => setShare ns (tg k) (sh k)) ns).map (·.id))
      = ns.map (·.id) := by
  induction m with
  | zero => rfl
  | succ m ih =>
    rw [List.range_succ, List.foldl_append, List.foldl_cons, List.foldl_nil,
      setShare_map_id, ih]

theorem foldl_setShare_holds (m : ℕ) (tg : ℕ → ℕ) (sh : ℕ → Share) (ns : List NodeState)
    {k : ℕ} (hk : k < m) (hmem : tg k ∈ ns.map (·.id)) :
    holdsShare ((List.range m).foldl (fun ns k => setShare ns (tg k) (sh k)) ns) (tg k) := by
  induction m with
  | zero => omega
  | succ m ih =>
    rw [List.range_succ, List.foldl_append, List.foldl_cons, List.foldl_nil]
    by_cases hcase : k = m
    · subst hcase
      apply setShare_holds_self
      rw [foldl_setShare_map_id]
      exact hmem
    · exact setShare_holds_mono _ (ih (by omega))

/-- If the (distinct) ids in `S` all hold a share, there are at least `|S|`
holders. -/
theorem length_le_countHolders {ns : List NodeState} {S : List ℕ}
    (hS : S.Nodup) (hall : ∀ i ∈ S, holdsShare ns i) :
    S.length ≤ (ns.filter (fun nd => nd.share.isSome)).length := by
  have hsub : S ⊆ (ns.filter (fun nd => nd.share.isSome)).map (·.id) := by
    intro i hi
    obtain ⟨nd, hnd, hid, hsome⟩ := hall i hi
    rw [← hid]
    apply List.mem_map_of_mem
    rw [List.mem_filter]
    exact ⟨hnd, by simpa using hsome⟩
  calc S.length ≤ ((ns.filter (fun nd => nd.share.isSome)).map (·.id)).length :=
        (hS.subperm hsub).length_le
    _ = (ns.filter (fun nd => nd.share.isSome)).length := List.length_map _ _

/-- At least `k + 1` list elements are `≤` the `k`-th entry of the sorted
list. -/
theorem le_countP_sorted (l : List ℚ) (k : ℕ) (hk : k < l.length) :
    k + 1 ≤ l.countP (fun v => decide (v ≤ (l.insertionSort (· ≤ ·)).getD k 0)) := by
  have hperm : List.Perm (l.insertionSort (· ≤ ·)) l := List.perm_insertionSort _ l
  have hlen : (l.insertionSort (· ≤ ·)).length = l.length := hperm.length_eq
  have hsorted : (l.insertionSort (· ≤ ·)).Sorted (· ≤ ·) := List.sorted_insertionSort _ l
  set s := l.insertionSort (· ≤ ·) with hs
  set p : ℚ → Bool := fun v => decide (v ≤ s.getD k 0) with hp
  rw [← hperm.countP_eq]
  have hk2 : k < s.length := by rw [hlen]; exact hk
  have htlen : (s.take (k + 1)).length = k + 1 := by
    rw [List.length_take]
    omega
  have hall : ∀ a ∈ s.take (k + 1), p a = true := by
    intro a ha
    obtain ⟨i, hi, hai⟩ := List.getElem_of_mem ha
    have hik : i ≤ k := by
      rw [htlen] at hi
      omega
    have hi2 : i < s.length := by omega
    have hgot : a = s[i] := by
      rw [← hai, List.getElem_take]
    have hle : s[i] ≤ s[k] := by
      have := hsorted.rel_get_of_le
        (show (⟨i, hi2⟩ : Fin s.length) ≤ ⟨k, hk2⟩ from hik)
      simpa using this
    rw [hp]
    apply decide_eq_true
    rw [hgot, getD_lt_eq s 0 hk2]
    exact hle
  calc k + 1 = (s.take (k + 1)).countP p := by rw [List.countP_eq_length.mpr hall, htlen]
    _ ≤ (s.take (k + 1)).countP p + (s.drop (k + 1)).countP p := Nat.le_add_right _ _
    _ = s.countP p := by rw [← List.countP_append, List.take_append_drop]

/-- The length contribution of each `nominationStep` is exactly the indicator
of the node's own draw clearing the nomination threshold. -/
theorem foldl_nominationStep_length (allValues : List ℚ) (avail : List ℕ)
    (noms : ℕ → ℚ) (thr : ℚ)
    (hthr : (allValues.insertionSort (· ≤ ·)).get? (nominatingSize - 1) = some thr) :
    ∀ (ps : List (ℕ × NodeState)) (acc : List ℕ),
      (ps.foldl (nominationStep allValues avail noms) acc).length
        = acc.length + ps.countP (fun p => decide (p.2.randomValue ≤ thr)) := by
  intro ps
  induction ps with
  | nil =>
    intro acc
    rw [List.foldl_nil, List.countP_nil, Nat.add_zero]
  | cons q ps ih =>
    intro acc
    have hkey := checkAndNominate_eq_of_get q.2 allValues nominatingSize
      (avail.filter (fun id => id ∉ acc)) (noms q.1) thr hthr
    by_cases hc : q.2.randomValue ≤ thr
    · rw [if_pos hc] at hkey
      have hstep : (nominationStep allValues avail noms acc q).length = acc.length + 1 := by
        simp only [nominationStep, hkey]
        rw [List.length_append, List.length_singleton]
      rw [List.foldl_cons, ih, hstep, List.countP_cons]
      simp [hc]
      omega
    · rw [if_neg hc] at hkey
      have hstep : nominationStep allValues avail noms acc q = acc := by
        simp only [nominationStep, hkey]
      rw [List.foldl_cons, hstep, ih, List.countP_cons]
      simp [hc]

/-- The nomination loop returns exactly as many members as there are nodes
whose draw clears the `nominatingSize`-th smallest draw. -/
theorem nominationLoop_count (nodes : List NodeState) (allValues : List ℚ)
    (avail : List ℕ) (noms : ℕ → ℚ)
    (hidx : nominatingSize - 1 < allValues.length) :
    (nominationLoop nodes allValues avail noms).length
      = nodes.countP (fun nd => decide (nd.randomValue
          ≤ (allValues.insertionSort (· ≤ ·)).getD (nominatingSize - 1) 0)) := by
  have hidx2 : nominatingSize - 1 < (allValues.insertionSort (· ≤ ·)).length := by
    rw [List.length_insertionSort]
    exact hidx
  have hget : (allValues.insertionSort (· ≤ ·)).get? (nominatingSize - 1)
      = some ((allValues.insertionSort (· ≤ ·)).getD (nominatingSize - 1) 0) := by
    rw [List.getD_eq_getElem?_getD, List.get?_eq_getElem?, List.getElem?_eq_getElem hidx2]
    rfl
  rw [nominationLoop, foldl_nominationStep_length allValues avail noms _ hget nodes.enum [],
    List.length_nil, Nat.zero_add]
  rw [show (fun p : ℕ × NodeState => decide (p.2.randomValue
      ≤ (allValues.insertionSort (· ≤ ·)).getD (nominatingSize - 1) 0))
    = ((fun nd : NodeState => decide (nd.randomValue
      ≤ (allValues.insertionSort (· ≤ ·)).getD (nominatingSize - 1) 0)) ∘ Prod.snd)
    from rfl]
  rw [← List.countP_map, List.enum_eq_enumFrom, List.enumFrom_map_snd]

/-- With the draws taken from the nodes themselves, the nomination loop always
returns at least `nominatingSize` members. -/
theorem nominationLoop_length_ge (nodes : List NodeState) (avail : List ℕ)
    (noms : ℕ → ℚ) (hlen : nominatingSize ≤ nodes.length) :
    nominatingSize
      ≤ (nominationLoop nodes (nodes.map (·.randomValue)) avail noms).length := by
  have hvl : (nodes.map (·.randomValue)).length = nodes.length := List.length_map _ _
  have hidx : nominatingSize - 1 < (nodes.map (·.randomValue)).length := by
    rw [hvl]
    have h0 : 0 < nominatingSize := by norm_num [nominatingSize]
    omega
  rw [nominationLoop_count nodes _ avail noms hidx]
  have hcount := le_countP_sorted (nodes.map (·.randomValue)) (nominatingSize - 1) hidx
  have h5 : nominatingSize - 1 + 1 = nominatingSize := by norm_num [nominatingSize]
  rw [h5] at hcount
  calc nominatingSize
      ≤ (nodes.map (·.randomValue)).countP (fun v => decide (v
          ≤ ((nodes.map (·.randomValue)).insertionSort (· ≤ ·)).getD
            (nominatingSize - 1) 0)) := hcount
    _ = nodes.countP (fun nd => decide (nd.randomValue
          ≤ ((nodes.map (·.randomValue)).insertionSort (· ≤ ·)).getD
            (nominatingSize - 1) 0)) := by
        rw [List.countP_map]
        rfl

/-- Whatever id `checkAndNominate` returns is either drawn from the available
list, or is the node's own id with no other candidate available. -/
theorem checkAndNominate_some_cases {nd : NodeState} {allValues : List ℚ}
    {avail2 : List ℕ} {rand : ℚ} {nom : ℕ} (h0 : 0 ≤ rand) (h1 : rand < 1)
    (h : checkAndNominate nd allValues nominatingSize avail2 rand = some nom) :
    nom ∈ avail2 ∨ (nom = nd.id ∧ avail2.filter (fun nodeId => nodeId ≠ nd.id) = []) := by
  rcases hget : (allValues.insertionSort (· ≤ ·)).get? (nominatingSize - 1) with _ | thr
  · have hkey : checkAndNominate nd allValues nominatingSize avail2 rand = none := by
      simp only [checkAndNominate, hget]
    rw [hkey] at h
    exact absurd h (by simp)
  · have hkey := checkAndNominate_eq_of_get nd allValues nominatingSize avail2 rand thr hget
    rw [hkey] at h
    by_cases hc : nd.randomValue ≤ thr
    · rw [if_pos hc] at h
      set cands := avail2.filter (fun nodeId => nodeId ≠ nd.id) with hcands
      have hnom : nom = (cands.get? (⌊rand * (cands.length : ℚ)⌋).toNat).getD nd.id :=
        (Option.some.inj h).symm
      rcases hc2 : cands.get? (⌊rand * (cands.length : ℚ)⌋).toNat with _ | c
      · right
        have hnn : nom = nd.id := by
          rw [hnom, hc2]
          rfl
        refine ⟨hnn, ?_⟩
        by_contra hne
        have hpos : 0 < cands.length := List.length_pos.mpr hne
        have hidx2 := floor_toNat_lt cands.length h0 h1 hpos
        rw [List.get?_eq_getElem?, List.getElem?_eq_getElem hidx2] at hc2
        exact absurd hc2 (by simp)
      · left
        have hcm : c ∈ cands := List.get?_mem hc2
        have hnc : nom = c := by
          rw [hnom, hc2]
          rfl
        rw [hnc]
        exact (List.mem_filter.mp hcm).1
    · rw [if_neg hc] at h
      exact absurd h (by simp)

theorem length_le_one_of_all_eq {l : List ℕ} {c : ℕ} (hnd : l.Nodup)
    (hall : ∀ a ∈ l, a = c) : l.length ≤ 1 := by
  rcases l with _ | ⟨a, l⟩
  · simp
  rcases l with _ | ⟨b, l⟩
  · simp
  exfalso
  have ha := hall a (by simp)
  have hb := hall b (by simp)
  rw [List.nodup_cons] at hnd
  apply hnd.1
  have hab : a = b := by rw [ha, hb]
  rw [hab]
  exact List.mem_cons_self _ _

theorem filter_length_partition (p : ℕ → Bool) (l : List ℕ) :
    (l.filter p).length + (l.filter (fun x => !p x)).length = l.length := by
  have h := (l.filter_append_perm p).length_eq
  rw [List.length_append] at h
  exact h

/-- The nomination loop never repeats a member among the first
`avail.length - 1` picks (the self-fallback can only fire once every other
available id is taken), and every member is an available id. -/
theorem foldl_nominationStep_nodup_subset (allValues : List ℚ) (avail : List ℕ)
    (noms : ℕ → ℚ) (hnd : avail.Nodup)
    (hvr : ∀ i, 0 ≤ noms i ∧ noms i < 1) :
    ∀ (ps : List (ℕ × NodeState)) (acc : List ℕ),
      (∀ p ∈ ps, p.2.id ∈ avail) →
      (acc.take (avail.length - 1)).Nodup → acc ⊆ avail →
      ((ps.foldl (nominationStep allValues avail noms) acc).take
          (avail.length - 1)).Nodup
        ∧ (ps.foldl (nominationStep allValues avail noms) acc) ⊆ avail := by
  intro ps
  induction ps with
  | nil =>
    intro acc _ h1 h2
    exact ⟨h1, h2⟩
  | cons q ps ih =>
    intro acc hmem h1 h2
    rw [List.foldl_cons]
    have hstep : ((nominationStep allValues avail noms acc q).take
        (avail.length - 1)).Nodup ∧ nominationStep allValues avail noms acc q ⊆ avail := by
      rcases hcn : checkAndNominate q.2 allValues nominatingSize
          (avail.filter (fun id => id ∉ acc)) (noms q.1) with _ | nom
      · have hs : nominationStep allValues avail noms acc q = acc := by
          simp only [nominationStep, hcn]
        rw [hs]
        exact ⟨h1, h2⟩
      · have hs : nominationStep allValues avail noms acc q = acc ++ [nom] := by
          simp only [nominationStep, hcn]
        rw [hs]
        rcases checkAndNominate_some_cases (hvr q.1).1 (hvr q.1).2 hcn with hin | ⟨hid, hemp⟩
        · have hmf := List.mem_filter.mp hin
          have hnomav : nom ∈ avail := hmf.1
          have hnotacc : nom ∉ acc := by simpa using hmf.2
          constructor
          · by_cases hlen : avail.length - 1 ≤ acc.length
            · rw [List.take_append_eq_append_take, Nat.sub_eq_zero_of_le hlen,
                List.take_zero, List.append_nil]
              exact h1
            · push_neg at hlen
              rw [List.take_all_of_le (by
                rw [List.length_append]
                simp
                omega)]
              have haccnd : acc.Nodup := by
                rw [List.take_all_of_le (by omega : acc.length ≤ avail.length - 1)] at h1
                exact h1
              rw [List.nodup_append]
              refine ⟨haccnd, List.nodup_singleton nom, ?_⟩
              intro a ha hb
              rw [List.mem_singleton] at hb
              rw [hb] at ha
              exact hnotacc ha
          · intro a ha
            rcases List.mem_append.mp ha with h | h
            · exact h2 h
            · rw [List.mem_singleton] at h
              rw [h]
              exact hnomav
        · have hall : ∀ a ∈ avail.filter (fun id => id ∉ acc), a = q.2.id := by
            intro a ha
            have := List.filter_eq_nil_iff.mp hemp a ha
            simpa using this
          have hnd2 : (avail.filter (fun id => id ∉ acc)).Nodup := hnd.filter _
          have hle1 : (avail.filter (fun id => id ∉ acc)).length ≤ 1 :=
            length_le_one_of_all_eq hnd2 hall
          have hpart := filter_length_partition (fun id => decide (id ∉ acc)) avail
          have hsub3 : (avail.filter (fun x => !(decide (x ∉ acc)))).length
              ≤ acc.length := by
            have hnd3 : (avail.filter (fun x => !(decide (x ∉ acc)))).Nodup :=
              hnd.filter _
            apply (hnd3.subperm ?_).length_le
            intro a ha
            have := List.mem_filter.mp ha
            simpa using this.2
          have hcount : avail.length ≤ acc.length + 1 := by omega
          constructor
          · rw [List.take_append_eq_append_take,
              Nat.sub_eq_zero_of_le (by omega : avail.length - 1 ≤ acc.length),
              List.take_zero, List.append_nil]
            exact h1
          · intro a ha
            rcases List.mem_append.mp ha with h | h
            · exact h2 h
            · rw [List.mem_singleton] at h
              rw [h, hid]
              exact hmem q (List.mem_cons_self _ _)
    exact ih _ (fun p hp => hmem p (List.mem_cons_of_mem q hp)) hstep.1 hstep.2

/-- The nomination-loop members are distinct (up to the point where only the
self-fallback remains) and all drawn from the available ids. -/
theorem nominationLoop_nodup_subset (nodes : List NodeState) (allValues : List ℚ)
    (avail : List ℕ) (noms : ℕ → ℚ) (hnd : avail.Nodup)
    (hvr : ∀ i, 0 ≤ noms i ∧ noms i < 1)
    (hids : ∀ nd ∈ nodes, nd.id ∈ avail) :
    ((nominationLoop nodes allValues avail noms).take (avail.length - 1)).Nodup
      ∧ nominationLoop nodes allValues avail noms ⊆ avail := by
  rw [nominationLoop]
  apply foldl_nominationStep_nodup_subset allValues avail noms hnd hvr nodes.enum []
  · intro p hp
    exact hids p.2 (mem_of_mem_enum hp)
  · simp
  · simp

/-- Any five distinct member ids present in the map, each given a share by a
`setShare` fold, yield at least `nominatingSize` holders. -/
theorem foldl_setShare_count (m : ℕ) (sh : ℕ → Share) (ns : List NodeState)
    (members : List ℕ) (hm : nominatingSize ≤ m) (hmm : m ≤ members.length)
    (hnd9 : (members.take (totalNodes - 1)).Nodup)
    (hsub : members ⊆ ns.map (·.id)) :
    nominatingSize ≤ (((List.range m).foldl
      (fun ns k => setShare ns (members.getD k 0) (sh k)) ns).filter
        (fun nd => nd.share.isSome)).length := by
  set S := members.take nominatingSize with hS
  have h5 : nominatingSize ≤ totalNodes - 1 := by norm_num [nominatingSize, totalNodes]
  have hSlen : S.length = nominatingSize := by
    rw [hS, List.length_take]
    omega
  have hSnd : S.Nodup := by
    have h59 : (members.take (totalNodes - 1)).take nominatingSize = S := by
      rw [hS, List.take_take]
      norm_num [nominatingSize, totalNodes]
    exact h59 ▸ ((List.take_sublist _ _).nodup hnd9)
  have hall : ∀ i ∈ S, holdsShare ((List.range m).foldl
      (fun ns k => setShare ns (members.getD k 0) (sh k)) ns) i := by
    intro i hi
    rw [hS] at hi
    obtain ⟨k, hk, hki⟩ := List.getElem_of_mem hi
    have hk5 : k < nominatingSize := by
      rw [List.length_take] at hk
      omega
    have hkm : k < members.length := by omega
    have hig : i = members.getD k 0 := by
      rw [← hki, List.getElem_take, getD_lt_eq members 0 hkm]
    rw [hig]
    apply foldl_setShare_holds m _ sh ns (by omega : k < m)
    apply hsub
    rw [getD_lt_eq members 0 hkm]
    exact List.getElem_mem _
  calc nominatingSize = S.length := hSlen.symm
    _ ≤ _ := length_le_countHolders hSnd hall

/-- A successful `Except` `mapM` returns one output per input. -/
theorem exceptMapM_length {α β : Type} (f : α → Except String β) :
    ∀ (l : List α) (out : List β), l.mapM f = .ok out → out.length = l.length := by
  intro l
  induction l with
  | nil =>
    intro out h
    rw [List.mapM_nil] at h
    rw [← Except.ok.inj h]
    rfl
  | cons a l ih =>
    intro out h
    rw [List.mapM_cons] at h
    rcases hfa : f a with e | x
    · rw [hfa] at h
      exact Except.noConfusion
        (show (Except.error e : Except String (List β)) = .ok out from h)
    · rw [hfa] at h
      rcases hml : l.mapM f with e | xs
      · rw [hml] at h
        exact Except.noConfusion
          (show (Except.error e : Except String (List β)) = .ok out from h)
      · rw [hml] at h
        have h2 : (Except.ok (x :: xs) : Except String (List β)) = .ok out := h
        rw [← Except.ok.inj h2, List.length_cons, List.length_cons, ih xs hml]

/-- Every output of a successful `Except` `mapM` is a successful output of
`f`. -/
theorem exceptMapM_mem {α β : Type} (f : α → Except String β) :
    ∀ (l : List α) (out : List β), l.mapM f = .ok out →
      ∀ b ∈ out, ∃ a, f a = .ok b := by
  intro l
  induction l with
  | nil =>
    intro out h b hb
    rw [List.mapM_nil] at h
    rw [← Except.ok.inj h] at hb
    exact absurd hb (List.not_mem_nil b)
  | cons a l ih =>
    intro out h b hb
    rw [List.mapM_cons] at h
    rcases hfa : f a with e | x
    · rw [hfa] at h
      exact Except.noConfusion
        (show (Except.error e : Except String (List β)) = .ok out from h)
    · rw [hfa] at h
      rcases hml : l.mapM f with e | xs
      · rw [hml] at h
        exact Except.noConfusion
          (show (Except.error e : Except String (List β)) = .ok out from h)
      · rw [hml] at h
        have h2 : (Except.ok (x :: xs) : Except String (List β)) = .ok out := h
        rw [← Except.ok.inj h2] at hb
        rcases List.mem_cons.mp hb with hbx | hbx
        · exact ⟨a, by rw [hfa, hbx]⟩
        · exact ih xs hml b hbx

/-- A successful `createSubShares` returns one sub-share per new seat. -/
theorem createSubShares_ok_length {share : Option Share} {numNewSeats thr : ℕ}
    {tape : ℕ → ℤ} {row : List ℤ}
    (h : createSubShares share numNewSeats thr tape = .ok row) :
    row.length = numNewSeats := by
  rcases share with _ | s
  · exact Except.noConfusion
      (show (Except.error "Node has no share to create sub-shares from"
        : Except String (List ℤ)) = .ok row from h)
  · have h2 : (Except.ok ((List.range numNewSeats).map (fun k =>
        evaluatePolynomial (s.y :: (List.range (thr - 1)).map tape) (k + 1)))
        : Except String (List ℤ)) = .ok row := h
    rw [← Except.ok.inj h2, List.length_map, List.length_range]

/-- Regenerating the random draws does not change which nodes hold shares. -/
theorem generateAll_filter_length (nodes : List NodeState) (rvs : ℕ → ℚ) :
    ((generateAll nodes rvs).filter (fun nd => nd.share.isSome)).length
      = (nodes.filter (fun nd => nd.share.isSome)).length := by
  rw [generateAll, ← List.countP_eq_length_filter, ← List.countP_eq_length_filter,
    List.countP_map]
  have h1 : ((fun nd : NodeState => nd.share.isSome) ∘ (fun p : ℕ × NodeState =>
      { p.2 with randomValue := rvs p.1 })) = ((fun nd : NodeState => nd.share.isSome)
        ∘ Prod.snd) := by
    funext p
    rfl
  rw [h1, ← List.countP_map, List.enum_eq_enumFrom, List.enumFrom_map_snd]

theorem idsList_nodup : idsList.Nodup :=
  (List.nodup_range totalNodes).map (fun a b h => by omega)

theorem idsList_length : idsList.length = totalNodes := by
  rw [idsList, List.length_map, List.length_range]

theorem freshNodes_map_id : freshNodes.map (·.id) = idsList := by
  rw [freshNodes, idsList, List.map_map]
  rfl

theorem createShares_length (s : List ℕ) (n t : ℕ) (tape : ℕ → ℤ) :
    (createShares s n t tape).length = n := by
  simp [createShares]

/-- Case analysis of a successful `transferShares` run: either there was
nothing to hand over and the map is returned unchanged, or every old holder's
sub-share row was produced and the result is the recombination fold over a
fresh node map. -/
theorem transferShares_ok_cases {nodes : List NodeState} {newIds : List ℕ}
    {coeffs : ℕ → ℕ → ℤ} {out : List NodeState}
    (h : transferShares nodes newIds coeffs = .ok out) :
    ((nodes.filter (fun nd => nd.share.isSome)).length = 0 ∧ out = nodes) ∨
    ((nodes.filter (fun nd => nd.share.isSome)).length ≠ 0 ∧
      ∃ mat : List (List ℤ),
        (nodes.filter (fun nd => nd.share.isSome)).enum.mapM
            (fun p => createSubShares p.2.share newIds.length threshold (coeffs p.1))
          = .ok mat ∧
        out = (List.range newIds.length).foldl
          (fun ns k =>
            computeNewShareFromSubShares ns (newIds.getD k 0) (k + 1)
              ((List.range threshold).map (fun j => (mat.getD j []).getD k 0))
              (((nodes.filter (fun nd => nd.share.isSome)).map
                (fun nd => (nd.share.getD defaultShare).x)).take threshold))
          freshNodes) := by
  simp only [transferShares] at h
  by_cases hfl : (nodes.filter (fun nd => nd.share.isSome)).length = 0
  · rw [if_pos hfl] at h
    exact Or.inl ⟨hfl, (Except.ok.inj h).symm⟩
  · rw [if_neg hfl] at h
    rcases hm : (nodes.filter (fun nd => nd.share.isSome)).enum.mapM
        (fun p => createSubShares p.2.share newIds.length threshold (coeffs p.1))
      with e | mat
    · rw [hm] at h
      exact Except.noConfusion
        (show (Except.error e : Except String (List NodeState)) = .ok out from h)
    · rw [hm] at h
      refine Or.inr ⟨hfl, mat, hm, ?_⟩
      exact (Except.ok.inj (show (Except.ok _ : Except String (List NodeState))
        = .ok out from h)).symm

/-- A successful `startNewEpoch` preserves the node-map ids and leaves either
no holder at all or at least `nominatingSize` holders. -/
theorem startNewEpoch_good {st st' : SimState} {er : EpochRand}
    {init : Option (List Share)}
    (hg : st.nodes.map (·.id) = idsList) (hvr : ValidRand er)
    (hinit : ∀ shares, init = some shares → nominatingSize ≤ shares.length)
    (h : startNewEpoch st er init = .ok st') :
    st'.nodes.map (·.id) = idsList ∧
      (countHolders st' = 0 ∨ nominatingSize ≤ countHolders st') := by
  have hmap1 : (generateAll st.nodes er.rvs).map (·.id) = idsList := by
    rw [generateAll_map_id]
    exact hg
  have hlen1 : (generateAll st.nodes er.rvs).length = totalNodes := by
    have h2 := congrArg List.length hmap1
    rw [List.length_map, idsList_length] at h2
    exact h2
  set nodes1 := generateAll st.nodes er.rvs with hn1
  set members := nominationLoop nodes1 (nodes1.map (·.randomValue))
    (nodes1.map (·.id)) er.noms with hmemdef
  have hmlen : nominatingSize ≤ members.length := by
    rw [hmemdef]
    apply nominationLoop_length_ge
    rw [hlen1]
    norm_num [nominatingSize, totalNodes]
  have havnd : (nodes1.map (·.id)).Nodup := by
    rw [hmap1]
    exact idsList_nodup
  have havlen : (nodes1.map (·.id)).length = totalNodes := by
    rw [hmap1, idsList_length]
  have hns := nominationLoop_nodup_subset nodes1 (nodes1.map (·.randomValue))
    (nodes1.map (·.id)) er.noms havnd hvr (fun nd hnd => List.mem_map_of_mem _ hnd)
  rw [← hmemdef, havlen] at hns
  rcases init with _ | shares
  · -- handover path
    simp only [startNewEpoch] at h
    rw [← hn1, ← hmemdef] at h
    rcases ht : transferShares nodes1 members er.coeffs with e | nodes2
    · rw [ht] at h
      exact Except.noConfusion
        (show (Except.error e : Except String SimState) = .ok st' from h)
    · rw [ht] at h
      have h2 : (Except.ok { currentEpoch := st.currentEpoch + 1, nodes := nodes2 }
          : Except String SimState) = .ok st' := h
      have hst' : st' = { currentEpoch := st.currentEpoch + 1, nodes := nodes2 } :=
        (Except.ok.inj h2).symm
      rcases transferShares_ok_cases ht with ⟨hzero, hout⟩ | ⟨_, mat, _, hout⟩
      · have hnodes : st'.nodes = nodes1 := by
          rw [hst']
          exact hout
        constructor
        · rw [hnodes]
          exact hmap1
        · left
          rw [countHolders, hnodes]
          exact hzero
      · have hnodes : st'.nodes = (List.range members.length).foldl
            (fun ns k =>
              computeNewShareFromSubShares ns (members.getD k 0) (k + 1)
                ((List.range threshold).map (fun j => (mat.getD j []).getD k 0))
                ((nodes1.filter (fun nd => nd.share.isSome)).map
                  (fun nd => (nd.share.getD defaultShare).x)
                  |>.take threshold))
            freshNodes := by
          rw [hst']
          exact hout
        have hsubfresh : members ⊆ freshNodes.map (·.id) := by
          rw [freshNodes_map_id, ← hmap1]
          exact hns.2
        constructor
        · rw [hnodes]
          calc ((List.range members.length).foldl _ freshNodes).map (·.id)
              = freshNodes.map (·.id) := foldl_setShare_map_id _ _ _ _
            _ = idsList := freshNodes_map_id
        · right
          rw [countHolders, hnodes]
          exact foldl_setShare_count members.length _ freshNodes members hmlen
            (le_refl _) hns.1 hsubfresh
  · -- initial-distribution path
    simp only [startNewEpoch] at h
    rw [← hn1, ← hmemdef] at h
    have hst' : st' = SimState.mk (distributeInitialShares nodes1 members shares)
        (st.currentEpoch + 1) :=
      (Except.ok.inj h).symm
    have hsh : nominatingSize ≤ shares.length := hinit shares rfl
    constructor
    · rw [hst']
      calc (distributeInitialShares nodes1 members shares).map (·.id)
          = nodes1.map (·.id) := foldl_setShare_map_id _ _ _ _
        _ = idsList := hmap1
    · right
      rw [hst', countHolders]
      exact foldl_setShare_count (min members.length shares.length)
        (fun i => shares.getD i defaultShare) nodes1 members
        (le_min hmlen hsh) (min_le_left _ _) hns.1 hns.2

/-- The safety invariant: every reachable state has the fixed id map
`1..totalNodes`, and either no holder at all or at least `nominatingSize`
holders. -/
theorem reachable_good {st : SimState} (h : Reachable st) :
    st.nodes.map (·.id) = idsList ∧
      (countHolders st = 0 ∨ nominatingSize ≤ countHolders st) := by
  induction h with
  | init =>
    constructor
    · exact freshNodes_map_id
    · left
      decide
  | encrypt hr hvr hok ih =>
    refine startNewEpoch_good ih.1 hvr ?_ hok
    intro shares hsh
    rw [← Option.some.inj hsh, createShares_length]
  | keepAlive hr hvr hok ih =>
    exact startNewEpoch_good ih.1 hvr (fun shares hsh => absurd hsh (by simp)) hok
  | @reconstruct st hr ih =>
    have h2 : (simReconstructSecret st).2
        = SimState.mk (st.nodes.map resetNode) 0 := by
      simp only [simReconstructSecret]
      split <;> rfl
    constructor
    · rw [h2]
      show (st.nodes.map resetNode).map (·.id) = idsList
      rw [List.map_map]
      have h3 : ((fun nd : NodeState => nd.id) ∘ resetNode)
          = (fun nd : NodeState => nd.id) := by
        funext nd
        rfl
      rw [h3]
      exact ih.1
    · left
      rw [countHolders, h2]
      show ((st.nodes.map resetNode).filter (fun nd => nd.share.isSome)).length = 0
      rw [List.length_eq_zero, List.filter_eq_nil_iff]
      intro nd hnd
      obtain ⟨nd0, _, rfl⟩ := List.mem_map.mp hnd
      simp [resetNode]

/-- **C10.** In every reachable state in which the handover runs with at least
one share-holding node, at least `threshold` nodes hold shares (the nomination
invariant in fact guarantees `nominatingSize ≥ threshold` of them), so inside
`transferShares` every access `subShareMatrix[j][k]` with `j < threshold` and
`k < newHolderIds.length` is within the bounds of the sub-share matrix built
by the old holders: the out-of-bounds branch of that indexing is
unreachable. -/
theorem subShareMatrix_in_bounds {st : SimState} {er : EpochRand}
    (newHolderIds : List ℕ) {mat : List (List ℤ)}
    (hr : Reachable st) (hpos : 0 < countHolders st)
    (hmat : ((generateAll st.nodes er.rvs).filter (fun nd => nd.share.isSome)).enum.mapM
        (fun p => createSubShares p.2.share newHolderIds.length threshold (er.coeffs p.1))
      = .ok mat) :
    ∀ j k, j < threshold → k < newHolderIds.length →
      j < mat.length ∧ k < (mat.getD j []).length := by
  intro j k hj hk
  obtain ⟨_, hcnt⟩ := reachable_good hr
  have h5 : nominatingSize ≤ countHolders st := by
    rcases hcnt with h0 | h5
    · omega
    · exact h5
  have hglen : ((generateAll st.nodes er.rvs).filter
      (fun nd => nd.share.isSome)).length = countHolders st :=
    generateAll_filter_length st.nodes er.rvs
  have hmlen := exceptMapM_length _ _ _ hmat
  rw [enum_length, hglen] at hmlen
  have hjm : j < mat.length := by
    have h35 : threshold ≤ nominatingSize := by norm_num [threshold, nominatingSize]
    omega
  refine ⟨hjm, ?_⟩
  have hrow : mat.getD j [] ∈ mat := by
    rw [List.getD_eq_getElem?_getD, List.getElem?_eq_getElem hjm]
    exact List.getElem_mem _
  obtain ⟨p, hp⟩ := exceptMapM_mem _ _ _ hmat (mat.getD j []) hrow
  have hrl := createSubShares_ok_length hp
  omega

/-- Unwrap a sub-share matrix computation known to succeed. -/
def okMat (e : Except String (List (List ℤ))) : List (List ℤ) :=
  match e with
  | .ok m => m
  | .error _ => []

/-- A concrete epoch randomness: all draws `0`, all coefficients `0`. -/
def wEr : EpochRand := ⟨fun _ => 0, fun _ => 0, fun _ _ => 0⟩

/-- The concrete reachable state after encrypting the one-byte secret `[1]`
from the fresh simulator. -/
def wST : SimState := okState (simEncryptSecret [1] (fun _ => 0) wEr initialState)

/-- The sub-share matrix computation of the next handover from `wST` with
three new holders. -/
def wMapM : Except String (List (List ℤ)) :=
  ((generateAll wST.nodes wEr.rvs).filter (fun nd => nd.share.isSome)).enum.mapM
    (fun p => createSubShares p.2.share ([1, 2, 3] : List ℕ).length threshold
      (wEr.coeffs p.1))

/-- The sub-share matrix itself. -/
def wMat : List (List ℤ) := okMat wMapM

set_option maxRecDepth 40000 in
/-- Witness for C10 at the concrete state `wST` (reachable by one
`encryptSecret` call), new holders `[1, 2, 3]` and entry `j = 2`, `k = 0`. -/
theorem subShareMatrix_in_bounds_witness :
    (Reachable wST ∧ 0 < countHolders wST ∧ wMapM = .ok wMat ∧ 2 < threshold ∧
      0 < ([1, 2, 3] : List ℕ).length) ∧
    (2 < wMat.length ∧ 0 < (wMat.getD 2 []).length) := by
  have hvr : ValidRand wEr := by
    intro i
    refine ⟨le_refl 0, ?_⟩
    show (0 : ℚ) < 1
    norm_num
  have hok : simEncryptSecret [1] (fun _ => 0) wEr initialState = .ok wST := by
    with_unfolding_all rfl
  have hr : Reachable wST := Reachable.encrypt Reachable.init hvr hok
  have hpos : 0 < countHolders wST := by with_unfolding_all decide
  have hmat : wMapM = .ok wMat := by with_unfolding_all rfl
  refine ⟨⟨hr, hpos, hmat, by decide, by decide⟩, ?_⟩
  exact subShareMatrix_in_bounds [1, 2, 3] hr hpos hmat 2 0 (by decide) (by decide)

/-! ## Claim C9: shape of `createShares` -/

/-- **C9.** For every secret `s`, random tape and `n`, `createShares` returns
exactly `n` shares whose `x` coordinates are exactly `1, 2, ..., n` — pairwise
distinct and never `0` — with `shareIndex = x - 1` for each share (hence in
particular `createShares "HELLO" 5 3` returns 5 shares with
`x ∈ {1, 2, 3, 4, 5}`). -/
theorem createShares_shape (s : List ℕ) (n t : ℕ) (tape : ℕ → ℤ) :
    (createShares s n t tape).length = n ∧
    (createShares s n t tape).map (·.x) = (List.range n).map (· + 1) ∧
    (∀ sh ∈ createShares s n t tape, sh.shareIndex = sh.x - 1 ∧ sh.x ≠ 0) ∧
    ((createShares s n t tape).map (·.x)).Nodup := by
  refine ⟨by simp [createShares], ?_, ?_, ?_⟩
  · simp [createShares]
  · intro sh hsh
    simp only [createShares, List.mem_map, List.mem_range] at hsh
    obtain ⟨i, _, rfl⟩ := hsh
    constructor <;> simp
  · have hx : (createShares s n t tape).map (·.x) = (List.range n).map (· + 1) := by
      simp [createShares]
    rw [hx]
    exact (List.nodup_range n).map (fun a b => by omega)

end ECPSS
